import Mathlib

/-!
Verification of the incremental stream parser in src/lib/ai/parseStream.ts.

The parser is a four-state machine (IDLE, IN_ARTIFACT, IN_FILE_ACTION,
IN_SHELL_ACTION) that consumes chunks of streamed text, recognizes
boltArtifact / boltAction tags, and dispatches file and shell actions to an
execution environment.  Strings are modelled as lists of characters; the
JavaScript regular expressions of the source are modelled by deterministic
matchers that reproduce their leftmost-match, greedy semantics on the
patterns actually used.
-/

namespace ParseStream

set_option maxRecDepth 100000

/-- Character class of the JavaScript whitespace used by the \s regex class and
by String.prototype.trim (restricted to the ASCII range that can occur here). -/
def jsWs (c : Char) : Bool :=
  c = ' ' || c = '\t' || c = '\n' || c = '\r' || c = '\x0b' || c = '\x0c'

/-- Strings are lists of characters. -/
abbrev Str := List Char

/-- JavaScript String.prototype.trim: drop whitespace from both ends. -/
def trimL (l : Str) : Str :=
  ((l.dropWhile jsWs).reverse.dropWhile jsWs).reverse

/-- Match a literal at the start of the input; return the rest on success. -/
def litP (p s : Str) : Option Str :=
  match p, s with
  | [], s => some s
  | _ :: _, [] => none
  | a :: p', b :: s' => if a = b then litP p' s' else none

/-- Greedy match of the regex fragment \s+ (one or more whitespace characters). -/
def ws1 (s : Str) : Option Str :=
  match s with
  | [] => none
  | c :: s' => if jsWs c then some (s'.dropWhile jsWs) else none

/-- Match the regex fragment ([^"]+)" : a nonempty run of non-quote characters
followed by the closing quote, returning the captured run and the rest. -/
def attrVal (s : Str) : Option (Str × Str) :=
  let v := s.takeWhile (fun c => c ≠ '\"')
  match s.dropWhile (fun c => c ≠ '\"') with
  | _ :: r' => if v = [] then none else some (v, r')
  | [] => none

def kwBoltArtifact : Str := "<boltArtifact".toList
def kwBoltAction : Str := "<boltAction".toList
def kwId : Str := "id=\"".toList
def kwTitle : Str := "title=\"".toList
def kwTypeFile : Str := "type=\"file\"".toList
def kwTypeShell : Str := "type=\"shell\">".toList
def kwFilePath : Str := "filePath=\"".toList
def kwGt : Str := ">".toList

/-- Match of /<boltArtifact\s+id="([^"]+)"\s+title="([^"]+)">/ anchored at the
start of the input, returning (id, title, rest). -/
def matchArtifactAt (s : Str) : Option (Str × Str × Str) :=
  (litP kwBoltArtifact s).bind fun s1 =>
  (ws1 s1).bind fun s2 =>
  (litP kwId s2).bind fun s3 =>
  (attrVal s3).bind fun iv =>
  (ws1 iv.2).bind fun s5 =>
  (litP kwTitle s5).bind fun s6 =>
  (attrVal s6).bind fun tv =>
  (litP kwGt tv.2).map fun s8 => (iv.1, tv.1, s8)

/-- Match of /<boltAction\s+type="file"\s+filePath="([^"]+)">/ anchored at the
start of the input, returning (filePath, rest). -/
def matchFileAt (s : Str) : Option (Str × Str) :=
  (litP kwBoltAction s).bind fun s1 =>
  (ws1 s1).bind fun s2 =>
  (litP kwTypeFile s2).bind fun s3 =>
  (ws1 s3).bind fun s4 =>
  (litP kwFilePath s4).bind fun s5 =>
  (attrVal s5).bind fun pv =>
  (litP kwGt pv.2).map fun s7 => (pv.1, s7)

/-- Match of /<boltAction\s+type="shell">/ anchored at the start of the input,
returning the rest. -/
def matchShellAt (s : Str) : Option Str :=
  (litP kwBoltAction s).bind fun s1 =>
  (ws1 s1).bind fun s2 =>
  litP kwTypeShell s2

/-- Leftmost match of the artifact-open regex (JavaScript String.match). -/
def findArtifact : Str → Option (Str × Str × Str)
  | [] => none
  | s@(_ :: t) =>
    match matchArtifactAt s with
    | some r => some r
    | none => findArtifact t

/-- Leftmost match of the file-action-open regex. -/
def findFile : Str → Option (Str × Str)
  | [] => none
  | s@(_ :: t) =>
    match matchFileAt s with
    | some r => some r
    | none => findFile t

/-- Leftmost match of the shell-action-open regex. -/
def findShell : Str → Option Str
  | [] => none
  | s@(_ :: t) =>
    match matchShellAt s with
    | some r => some r
    | none => findShell t

/-- First occurrence of a literal substring (JavaScript String.indexOf),
returned as the split (text before, text after) around the occurrence. -/
def splitAtSub (pat : Str) (s : Str) : Option (Str × Str) :=
  if pat.isPrefixOf s then some ([], s.drop pat.length)
  else
    match s with
    | [] => none
    | c :: t => (splitAtSub pat t).map fun ba => (c :: ba.1, ba.2)

def closeActionKw : Str := "</boltAction>".toList
def closeArtifactKw : Str := "</boltArtifact>".toList

/-- Parser states of the state machine. -/
inductive PState
  | IDLE
  | IN_ARTIFACT
  | IN_FILE_ACTION
  | IN_SHELL_ACTION
deriving DecidableEq

/-- BoltActionType from prompts.ts. -/
inductive BoltActionType
  | file
  | shell
deriving DecidableEq

/-- ParsedAction from prompts.ts. -/
structure ParsedAction where
  type : BoltActionType
  filePath : Option Str
  content : Str
deriving DecidableEq

/-- The in-progress action (this.currentAction). -/
structure CurAction where
  type : BoltActionType
  filePath : Option Str
deriving DecidableEq

/-- Mutable state of one StreamParser session. -/
structure Session where
  state : PState
  buffer : Str
  currentAction : Option CurAction
  contentBuffer : Str
deriving DecidableEq

/-- Observer callbacks fired during parsing, in firing order. -/
inductive Ev
  | artifactStart (id title : Str)
  | artifactEnd
  | actionStart (t : BoltActionType) (filePath : Option Str)
  | actionEnd (a : ParsedAction)
  | fileWritten (path : Str)
  | shellCommand (cmd : Str)
  | text (s : Str)
  | errorEv (path : Str)
deriving DecidableEq

/-- Outcome of one mkdir call against the execution environment. -/
inductive MkdirOutcome
  | ok
  | alreadyExists
  | failed
deriving DecidableEq

/-- The external execution environment: presence of the WebContainer handle and
the outcomes of its filesystem operations. -/
structure Env where
  attached : Bool
  mkdir : Str → MkdirOutcome
  writeOk : Str → Bool

def initSession : Session := ⟨.IDLE, [], none, []⟩

/-- dirPath = filePath.split('/').slice(0, -1).join('/') -/
def dirOf (path : Str) : Str :=
  List.intercalate ['/'] ((path.splitOn '/').dropLast)

/-- The cumulative currentPath values built by ensureDirectory:
dirPath.split('/').filter(Boolean), joined progressively. -/
def cumPaths (dirPath : Str) : List Str :=
  let parts := (dirPath.splitOn '/').filter (fun p => p ≠ [])
  (List.range parts.length).map fun i => List.intercalate ['/'] (parts.take (i + 1))

/-- Events surfaced by one mkdir attempt.  The source wraps the call in
try { await mkdir } catch { } with an empty catch block, so every outcome,
success or failure of any kind, surfaces nothing. -/
def mkdirEvents : MkdirOutcome → List Ev
  | .ok => []
  | .alreadyExists => []
  | .failed => []

/-- StreamParser.ensureDirectory: mkdir each cumulative path segment. -/
def ensureDirectory (env : Env) (dirPath : Str) : List Ev :=
  ((cumPaths dirPath).map fun p => mkdirEvents (env.mkdir p)).flatten

/-- StreamParser.writeFile: skip silently when no container is attached;
otherwise create parent directories, write, and fire onFileWritten on success
or onError on failure.  The file-tree refresh performs no observable event
(its own failure is only logged). -/
def writeFile (env : Env) (filePath _content : Str) : List Ev :=
  if env.attached = false then []
  else
    (if dirOf filePath ≠ [] then ensureDirectory env (dirOf filePath) else []) ++
    (if env.writeOk filePath then [Ev.fileWritten filePath] else [Ev.errorEv filePath])

/-- StreamParser.handleIdle. -/
def handleIdle (s : Session) : Session × List Ev × Bool :=
  match findArtifact s.buffer with
  | some (idv, tv, rest) =>
    ({ s with state := .IN_ARTIFACT, buffer := rest }, [Ev.artifactStart idv tv], true)
  | none =>
    match splitAtSub closeArtifactKw s.buffer with
    | some (_, after) => ({ s with buffer := after }, [Ev.artifactEnd], false)
    | none => (s, [], false)

/-- StreamParser.handleInArtifact.  Note the priority order of the source:
file-action match, then shell-action match, then artifact close. -/
def handleInArtifact (s : Session) : Session × List Ev × Bool :=
  match findFile s.buffer with
  | some (path, rest) =>
    (⟨.IN_FILE_ACTION, rest, some ⟨.file, some path⟩, []⟩,
     [Ev.actionStart .file (some path)], true)
  | none =>
    match findShell s.buffer with
    | some rest =>
      (⟨.IN_SHELL_ACTION, rest, some ⟨.shell, none⟩, []⟩,
       [Ev.actionStart .shell none], true)
    | none =>
      match splitAtSub closeArtifactKw s.buffer with
      | some (_, after) =>
        ({ s with state := .IDLE, buffer := after }, [Ev.artifactEnd], true)
      | none => (s, [], false)

/-- StreamParser.handleInFileAction. -/
def handleInFileAction (env : Env) (s : Session) : Session × List Ev × Bool :=
  match splitAtSub closeActionKw s.buffer with
  | some (before, after) =>
    let content := trimL (s.contentBuffer ++ before)
    let evs :=
      match s.currentAction with
      | some ca =>
        match ca.filePath with
        | some p =>
          if p ≠ [] ∧ content ≠ [] then
            writeFile env p content ++ [Ev.actionEnd ⟨.file, some p, content⟩]
          else []
        | none => []
      | none => []
    (⟨.IN_ARTIFACT, after, none, []⟩, evs, true)
  | none =>
    let k := s.buffer.length - closeActionKw.length
    (⟨s.state, s.buffer.drop k, s.currentAction, s.contentBuffer ++ s.buffer.take k⟩, [], false)

/-- StreamParser.handleInShellAction. -/
def handleInShellAction (s : Session) : Session × List Ev × Bool :=
  match splitAtSub closeActionKw s.buffer with
  | some (before, after) =>
    let command := trimL (s.contentBuffer ++ before)
    let evs :=
      if command ≠ [] then
        [Ev.shellCommand command, Ev.actionEnd ⟨.shell, none, command⟩]
      else []
    (⟨.IN_ARTIFACT, after, none, []⟩, evs, true)
  | none =>
    let k := s.buffer.length - closeActionKw.length
    (⟨s.state, s.buffer.drop k, s.currentAction, s.contentBuffer ++ s.buffer.take k⟩, [], false)

/-- One pass of the processBuffer loop: dispatch on the current state. -/
def step (env : Env) (s : Session) : Session × List Ev × Bool :=
  match s.state with
  | .IDLE => handleIdle s
  | .IN_ARTIFACT => handleInArtifact s
  | .IN_FILE_ACTION => handleInFileAction env s
  | .IN_SHELL_ACTION => handleInShellAction s

/-- The processBuffer while loop, with explicit fuel. -/
def processBufferFuel (env : Env) : Nat → Session → Session × List Ev
  | 0, s => (s, [])
  | fuel + 1, s =>
    match step env s with
    | (s', evs, true) =>
      let r := processBufferFuel env fuel s'
      (r.1, evs ++ r.2)
    | (s', evs, false) => (s', evs)

/-- StreamParser.processBuffer: every continuing pass consumes at least one
buffered character, so buffer length + 1 passes always suffice. -/
def processBuffer (env : Env) (s : Session) : Session × List Ev :=
  processBufferFuel env (s.buffer.length + 1) s

/-- StreamParser.processChunk: append the chunk, emit it to the text observer,
then run the processing loop. -/
def processChunk (env : Env) (s : Session) (c : Str) : Session × List Ev :=
  let r := processBuffer env { s with buffer := s.buffer ++ c }
  (r.1, Ev.text c :: r.2)

/-- Feed a list of chunks in order. -/
def runChunks (env : Env) (s : Session) : List Str → Session × List Ev
  | [] => (s, [])
  | c :: cs =>
    let r := processChunk env s c
    let r2 := runChunks env r.1 cs
    (r2.1, r.2 ++ r2.2)

/-- StreamParser.finalize: warn (console.warn, not an error callback) when the
state is not IDLE and content remains, then reset every field. -/
def finalize (s : Session) : Session × Bool :=
  (initSession, decide (s.state ≠ .IDLE) && decide (s.contentBuffer ≠ []))

/-- Events that are not raw-text echoes. -/
def isText : Ev → Bool
  | .text _ => true
  | _ => false

def nonText (evs : List Ev) : List Ev :=
  evs.filter fun e => !isText e

def textPayloads (evs : List Ev) : List Str :=
  evs.filterMap fun e =>
    match e with
    | .text t => some t
    | _ => none

def actionEnds (evs : List Ev) : List ParsedAction :=
  evs.filterMap fun e =>
    match e with
    | .actionEnd a => some a
    | _ => none

def firstActionEnd (evs : List Ev) : Option ParsedAction :=
  (actionEnds evs).head?

/-- Fully working environment: container attached, all operations succeed. -/
def envOK : Env := ⟨true, fun _ => .ok, fun _ => true⟩

/-- No execution-environment handle attached. -/
def envDetached : Env := ⟨false, fun _ => .ok, fun _ => true⟩

/-- An environment whose every mkdir call fails for a reason other than
already-exists. -/
def envFail : Env := ⟨true, fun _ => .failed, fun _ => true⟩

/-- An attached environment whose writes fail. -/
def envWriteFail : Env := ⟨true, fun _ => .ok, fun _ => false⟩

def errorEvents (evs : List Ev) : List Str :=
  evs.filterMap fun e =>
    match e with
    | .errorEv p => some p
    | _ => none

/-- The exact text consumed by a successful match of the artifact-open regex,
together with the grammatical facts about its parts. -/
def ArtifactShape (c iv tv : Str) : Prop :=
  ∃ w1 w2, c = kwBoltArtifact ++ w1 ++ kwId ++ iv ++ '\"' :: (w2 ++ kwTitle ++ tv ++ ['\"', '>'])
    ∧ w1 ≠ [] ∧ (∀ a ∈ w1, jsWs a) ∧ w2 ≠ [] ∧ (∀ a ∈ w2, jsWs a)
    ∧ iv ≠ [] ∧ (∀ a ∈ iv, a ≠ '\"') ∧ tv ≠ [] ∧ (∀ a ∈ tv, a ≠ '\"')

/-- The exact text consumed by a successful match of the file-action-open
regex, with the grammatical facts about its parts. -/
def FileShape (c pv : Str) : Prop :=
  ∃ w1 w2, c = kwBoltAction ++ w1 ++ kwTypeFile ++ w2 ++ kwFilePath ++ pv ++ ['\"', '>']
    ∧ w1 ≠ [] ∧ (∀ a ∈ w1, jsWs a) ∧ w2 ≠ [] ∧ (∀ a ∈ w2, jsWs a)
    ∧ pv ≠ [] ∧ (∀ a ∈ pv, a ≠ '\"')

/-- The exact text consumed by a successful match of the shell-action-open
regex, with the grammatical facts about its parts. -/
def ShellShape (c : Str) : Prop :=
  ∃ w1, c = kwBoltAction ++ w1 ++ kwTypeShell
    ∧ w1 ≠ [] ∧ (∀ a ∈ w1, jsWs a)

/-- C3 counterexample input: a 13-character buffer with no close literal. -/
def c3Sess : Session :=
  ⟨.IN_FILE_ACTION, "partial content he".toList, some ⟨.file, some "p".toList⟩, []⟩

/-- C6 witness input: whitespace-only content before the close literal. -/
def c6Sess : Session :=
  ⟨.IN_FILE_ACTION, "   </boltAction>tail".toList, some ⟨.file, some "p".toList⟩, []⟩

/-- C7 counterexample input: a complete file action in the buffer. -/
def c7Sess : Session :=
  ⟨.IN_FILE_ACTION, "hello</boltAction>".toList, some ⟨.file, some "x.txt".toList⟩, []⟩

/-- C7 shell witness input. -/
def c7ShellSess : Session :=
  ⟨.IN_SHELL_ACTION, "echo hi</boltAction>".toList, some ⟨.shell, none⟩, []⟩

/-- A well-formed artifact whose shell action precedes its file action. -/
def c1Input : Str :=
  ("<boltArtifact id=\"a\" title=\"t\"><boltAction type=\"shell\">echo hi" ++
   "</boltAction><boltAction type=\"file\" filePath=\"x.txt\">hi</boltAction>" ++
   "</boltArtifact>").toList

/-- The same input split right after the shell action's closing delimiter. -/
def c1ChunkA : Str :=
  ("<boltArtifact id=\"a\" title=\"t\"><boltAction type=\"shell\">echo hi" ++
   "</boltAction>").toList

def c1ChunkB : Str :=
  ("<boltAction type=\"file\" filePath=\"x.txt\">hi</boltAction></boltArtifact>").toList

/-- Session state immediately after a file-action open tag for path p has been
consumed. -/
def fileStart (p : Str) : Session := ⟨.IN_FILE_ACTION, [], some ⟨.file, some p⟩, []⟩

/-- Session state immediately after a shell-action open tag has been
consumed. -/
def shellStart : Session := ⟨.IN_SHELL_ACTION, [], some ⟨.shell, none⟩, []⟩

/-- Invariant of the content-accumulation buffer while inside an action: the
close literal never occurs starting inside the already-flushed region, and any
occurrence starting there would in fact fit inside the retained text. -/
def FlushInv (cb buf : Str) : Prop :=
  ∀ q < cb.length, q + closeActionKw.length ≤ cb.length + buf.length ∧
    ¬ closeActionKw <+: (cb ++ buf).drop q

/-! The concrete example input of the spec (section 8), written with the
actual tag vocabulary of the source, and its stage decomposition. -/

def pA : Str := "<boltArtifact id=\"a1\" title=\"T\">".toList
def pF : Str := "<boltAction type=\"file\" filePath=\"x.txt\">".toList
def pH : Str := "hello".toList
def pS : Str := "<boltAction type=\"shell\">".toList
def pE : Str := "echo hi".toList
def pZ : Str := "</boltArtifact>".toList

/-- The spec's example input: one artifact, a file action then a shell
action.  Character positions: artifact-open ends at 32, file-open at 73, its
content at 78, its close at 91, shell-open at 116, its content at 123, its
close at 136, artifact-close at 151. -/
def c2Input : Str := pA ++ (pF ++ (pH ++ (closeActionKw ++ (pS ++ (pE ++ (closeActionKw ++ pZ))))))

def sfx1 : Str := pF ++ (pH ++ (closeActionKw ++ (pS ++ (pE ++ (closeActionKw ++ pZ)))))
def sfx2 : Str := pH ++ (closeActionKw ++ (pS ++ (pE ++ (closeActionKw ++ pZ))))
def sfx3 : Str := pS ++ (pE ++ (closeActionKw ++ pZ))
def sfx4 : Str := pE ++ (closeActionKw ++ pZ)
def sfx5 : Str := pZ

/-- The slice of the example input from position i (inclusive) to position m
(exclusive). -/
def seg (i m : Nat) : Str := (c2Input.take m).drop i

/-- The canonical quiescent session after any chunking of the first m
characters of the example input has been processed. -/
def canon (m : Nat) : Session :=
  if m < 32 then ⟨.IDLE, seg 0 m, none, []⟩
  else if m < 73 then ⟨.IN_ARTIFACT, seg 32 m, none, []⟩
  else if m < 91 then
    ⟨.IN_FILE_ACTION, seg (max 73 (m - 13)) m, some ⟨.file, some "x.txt".toList⟩,
      seg 73 (max 73 (m - 13))⟩
  else if m < 116 then ⟨.IN_ARTIFACT, seg 91 m, none, []⟩
  else if m < 136 then
    ⟨.IN_SHELL_ACTION, seg (max 116 (m - 13)) m, some ⟨.shell, none⟩,
      seg 116 (max 116 (m - 13))⟩
  else if m < 151 then ⟨.IN_ARTIFACT, seg 136 m, none, []⟩
  else ⟨.IDLE, [], none, []⟩

/-- The observer events of the example run, with the cumulative position at
which each fires. -/
def c2Thresholds : List (Nat × List Ev) :=
  [(32, [Ev.artifactStart "a1".toList "T".toList]),
   (73, [Ev.actionStart .file (some "x.txt".toList)]),
   (91, [Ev.fileWritten "x.txt".toList,
         Ev.actionEnd ⟨.file, some "x.txt".toList, "hello".toList⟩]),
   (116, [Ev.actionStart .shell none]),
   (136, [Ev.shellCommand "echo hi".toList,
          Ev.actionEnd ⟨.shell, none, "echo hi".toList⟩]),
   (151, [Ev.artifactEnd])]

def cumEvAux (m : Nat) : List (Nat × List Ev) → List Ev
  | [] => []
  | (t, e) :: rest => if t ≤ m then e ++ cumEvAux m rest else []

/-- All non-text events fired once m characters of the example input have
been processed. -/
def cumEv (m : Nat) : List Ev := cumEvAux m c2Thresholds

/-- The non-text events fired while the cumulative position advances from n
to m. -/
def deltaEv (n m : Nat) : List Ev := (cumEv m).drop (cumEv n).length

/-! ### Basic properties of the elementary matchers -/

theorem litP_eq_some {p s r : Str} : litP p s = some r ↔ s = p ++ r := by
  induction p generalizing s with
  | nil => simp [litP]
  | cons a p' ih =>
    cases s with
    | nil => simp [litP]
    | cons b s' =>
      by_cases hab : a = b
      · subst hab
        simp [litP, ih]
      · simp [litP, hab, Ne.symm hab]

theorem ws1_append_cons {w : Str} {d : Char} {v : Str} (hw : w ≠ [])
    (hws : ∀ c ∈ w, jsWs c) (hd : jsWs d = false) :
    ws1 (w ++ d :: v) = some (d :: v) := by
  cases w with
  | nil => exact absurd rfl hw
  | cons c w' =>
    have hc : jsWs c := hws c (List.mem_cons_self c w')
    have hw' : ∀ a ∈ w', jsWs a := fun a ha => hws a (List.mem_cons_of_mem c ha)
    simp [ws1, hc, List.dropWhile_append_of_pos hw', List.dropWhile_cons, hd]

theorem ws1_eq_some {s r : Str} (h : ws1 s = some r) :
    ∃ w, s = w ++ r ∧ w ≠ [] ∧ (∀ c ∈ w, jsWs c) ∧
      (∀ d v, r = d :: v → jsWs d = false) := by
  cases s with
  | nil => simp [ws1] at h
  | cons c s' =>
    simp only [ws1] at h
    by_cases hc : jsWs c
    · simp only [hc, if_true, Option.some.injEq] at h
      refine ⟨c :: s'.takeWhile jsWs, ?_, by simp, ?_, ?_⟩
      · simp [← h, List.takeWhile_append_dropWhile]
      · intro a ha
        rcases List.mem_cons.mp ha with h1 | h2
        · exact h1 ▸ hc
        · exact List.mem_takeWhile_imp h2
      · intro d v hdv
        have := List.head?_dropWhile_not jsWs s'
        rw [← h] at hdv
        rw [hdv] at this
        simpa using this
    · simp [hc] at h

theorem attrVal_eq_some {s v r : Str} (h : attrVal s = some (v, r)) :
    s = v ++ '\"' :: r ∧ v ≠ [] ∧ ∀ c ∈ v, c ≠ '\"' := by
  unfold attrVal at h
  rcases hd : s.dropWhile (fun c => decide (c ≠ '\"')) with _ | ⟨q, r'⟩ <;> rw [hd] at h <;>
    dsimp only at h
  · exact absurd h (by simp)
  · by_cases hv : s.takeWhile (fun c => decide (c ≠ '\"')) = []
    · rw [if_pos hv] at h
      exact absurd h (by simp)
    · rw [if_neg hv] at h
      have h2 := Option.some.inj h
      have hv1 : s.takeWhile (fun c => decide (c ≠ '\"')) = v := congrArg Prod.fst h2
      have hr : r' = r := congrArg Prod.snd h2
      have hq : q = '\"' := by
        have := List.head?_dropWhile_not (fun c => decide (c ≠ '\"')) s
        rw [hd] at this
        simpa using this
      refine ⟨?_, hv1 ▸ hv, ?_⟩
      · have hs := (List.takeWhile_append_dropWhile (fun c => decide (c ≠ '\"')) s).symm
        rw [hv1, hd, hq, hr] at hs
        exact hs
      · intro a ha
        have := List.mem_takeWhile_imp (hv1 ▸ ha)
        simpa using this

theorem attrVal_append {v r : Str} (hv : v ≠ []) (hq : ∀ c ∈ v, c ≠ '\"') :
    attrVal (v ++ '\"' :: r) = some (v, r) := by
  have hpos : ∀ c ∈ v, (fun c => decide (c ≠ '\"')) c = true := by
    intro c hc
    simpa using hq c hc
  unfold attrVal
  rw [List.takeWhile_append_of_pos hpos, List.dropWhile_append_of_pos hpos]
  simp [List.takeWhile_cons, List.dropWhile_cons, hv]

theorem take_app {α : Type} (l₁ l₂ : List α) (n : Nat) :
    (l₁ ++ l₂).take (l₁.length + n) = l₁ ++ l₂.take n := by
  induction l₁ with
  | nil => simp
  | cons a l ih => simpa [Nat.succ_add] using ih

theorem drop_app {α : Type} (l₁ l₂ : List α) (n : Nat) :
    (l₁ ++ l₂).drop (l₁.length + n) = l₂.drop n := by
  induction l₁ with
  | nil => simp
  | cons a l ih => simp [Nat.succ_add, ih]

/-- A variant of ws1_append_cons phrased for an arbitrary continuation that is
known to start with a non-whitespace character. -/
theorem ws1_append_left {w r : Str} (hw : w ≠ []) (hws : ∀ c ∈ w, jsWs c)
    (hr : ∃ d t, r = d :: t ∧ jsWs d = false) : ws1 (w ++ r) = some r := by
  obtain ⟨d, t, rfl, hd⟩ := hr
  exact ws1_append_cons hw hws hd

/-! ### Shape of a successful artifact-open match -/

theorem ArtifactShape.buildArt {c iv tv : Str} (h : ArtifactShape c iv tv) (v : Str) :
    matchArtifactAt (c ++ v) = some (iv, tv, v) := by
  obtain ⟨w1, w2, rfl, hw1, hw1s, hw2, hw2s, hiv, hivq, htv, htvq⟩ := h
  unfold matchArtifactAt
  simp only [List.append_assoc, List.cons_append, List.nil_append]
  rw [litP_eq_some.mpr rfl, Option.some_bind]
  rw [ws1_append_left hw1 hw1s ⟨'i', _, by rw [kwId]; rfl, rfl⟩, Option.some_bind]
  rw [litP_eq_some.mpr rfl, Option.some_bind]
  rw [attrVal_append hiv hivq, Option.some_bind]
  dsimp only
  rw [ws1_append_left hw2 hw2s ⟨'t', _, by rw [kwTitle]; rfl, rfl⟩, Option.some_bind]
  rw [litP_eq_some.mpr rfl, Option.some_bind]
  rw [attrVal_append htv htvq, Option.some_bind]
  dsimp only
  have hgt : litP kwGt ('>' :: v) = some v := litP_eq_some.mpr rfl
  rw [hgt]
  rfl

theorem matchArtifactAt_destruct {s iv tv r : Str}
    (h : matchArtifactAt s = some (iv, tv, r)) :
    ∃ c, s = c ++ r ∧ ArtifactShape c iv tv := by
  unfold matchArtifactAt at h
  rw [Option.bind_eq_some] at h
  obtain ⟨s1, h1, h⟩ := h
  rw [Option.bind_eq_some] at h
  obtain ⟨s2, h2, h⟩ := h
  rw [Option.bind_eq_some] at h
  obtain ⟨s3, h3, h⟩ := h
  rw [Option.bind_eq_some] at h
  obtain ⟨p4, h4, h⟩ := h
  rw [Option.bind_eq_some] at h
  obtain ⟨s5, h5, h⟩ := h
  rw [Option.bind_eq_some] at h
  obtain ⟨s6, h6, h⟩ := h
  rw [Option.bind_eq_some] at h
  obtain ⟨p6, h7, h⟩ := h
  rw [Option.map_eq_some'] at h
  obtain ⟨s8, h8, h9⟩ := h
  obtain ⟨q4, rest4⟩ := p4
  obtain ⟨q6, rest6⟩ := p6
  dsimp only at h5 h8 h9
  have hiv : q4 = iv := congrArg (fun x => x.1) h9
  have htv : q6 = tv := congrArg (fun x => x.2.1) h9
  have hrr : s8 = r := congrArg (fun x => x.2.2) h9
  subst hiv
  subst htv
  subst hrr
  have e1 := litP_eq_some.mp h1
  obtain ⟨w1, e2, hw1, hw1s, _⟩ := ws1_eq_some h2
  have e3 := litP_eq_some.mp h3
  obtain ⟨e4, hiv1, hivq⟩ := attrVal_eq_some h4
  obtain ⟨w2, e5, hw2, hw2s, _⟩ := ws1_eq_some h5
  have e6 := litP_eq_some.mp h6
  obtain ⟨e7, htv1, htvq⟩ := attrVal_eq_some h7
  have e8 := litP_eq_some.mp h8
  refine ⟨kwBoltArtifact ++ w1 ++ kwId ++ q4 ++ '\"' :: (w2 ++ kwTitle ++ q6 ++ ['\"', '>']),
    ?_, w1, w2, rfl, hw1, hw1s, hw2, hw2s, hiv1, hivq, htv1, htvq⟩
  rw [e1, e2, e3, e4, e5, e6, e7, e8]
  simp [kwGt, List.append_assoc]

theorem ArtifactShape.neNilArt {c iv tv : Str} (h : ArtifactShape c iv tv) : c ≠ [] := by
  obtain ⟨w1, w2, rfl, -⟩ := h
  simp [kwBoltArtifact]

theorem ArtifactShape.length_pos {c iv tv : Str} (h : ArtifactShape c iv tv) :
    0 < c.length := by
  cases hc : c with
  | nil => exact absurd hc h.neNilArt
  | cons a t => simp

/-! ### Shape of a successful file-action-open match -/

theorem FileShape.buildFile {c pv : Str} (h : FileShape c pv) (v : Str) :
    matchFileAt (c ++ v) = some (pv, v) := by
  obtain ⟨w1, w2, rfl, hw1, hw1s, hw2, hw2s, hpv, hpvq⟩ := h
  unfold matchFileAt
  simp only [List.append_assoc, List.cons_append, List.nil_append]
  rw [litP_eq_some.mpr rfl, Option.some_bind]
  rw [ws1_append_left hw1 hw1s ⟨'t', _, by rw [kwTypeFile]; rfl, rfl⟩, Option.some_bind]
  rw [litP_eq_some.mpr rfl, Option.some_bind]
  rw [ws1_append_left hw2 hw2s ⟨'f', _, by rw [kwFilePath]; rfl, rfl⟩, Option.some_bind]
  rw [litP_eq_some.mpr rfl, Option.some_bind]
  rw [attrVal_append hpv hpvq, Option.some_bind]
  dsimp only
  have hgt : litP kwGt ('>' :: v) = some v := litP_eq_some.mpr rfl
  rw [hgt]
  rfl

theorem matchFileAt_destruct {s pv r : Str} (h : matchFileAt s = some (pv, r)) :
    ∃ c, s = c ++ r ∧ FileShape c pv := by
  unfold matchFileAt at h
  rw [Option.bind_eq_some] at h
  obtain ⟨s1, h1, h⟩ := h
  rw [Option.bind_eq_some] at h
  obtain ⟨s2, h2, h⟩ := h
  rw [Option.bind_eq_some] at h
  obtain ⟨s3, h3, h⟩ := h
  rw [Option.bind_eq_some] at h
  obtain ⟨s4, h4, h⟩ := h
  rw [Option.bind_eq_some] at h
  obtain ⟨s5, h5, h⟩ := h
  rw [Option.bind_eq_some] at h
  obtain ⟨p6, h6, h⟩ := h
  rw [Option.map_eq_some'] at h
  obtain ⟨s7, h7, h8⟩ := h
  obtain ⟨q6, rest6⟩ := p6
  dsimp only at h7 h8
  have hq : q6 = pv := congrArg (fun x => x.1) h8
  have hrr : s7 = r := congrArg (fun x => x.2) h8
  subst hq
  subst hrr
  have e1 := litP_eq_some.mp h1
  obtain ⟨w1, e2, hw1, hw1s, _⟩ := ws1_eq_some h2
  have e3 := litP_eq_some.mp h3
  obtain ⟨w2, e4, hw2, hw2s, _⟩ := ws1_eq_some h4
  have e5 := litP_eq_some.mp h5
  obtain ⟨e6, hpv1, hpvq⟩ := attrVal_eq_some h6
  have e7 := litP_eq_some.mp h7
  refine ⟨kwBoltAction ++ w1 ++ kwTypeFile ++ w2 ++ kwFilePath ++ q6 ++ ['\"', '>'],
    ?_, w1, w2, rfl, hw1, hw1s, hw2, hw2s, hpv1, hpvq⟩
  rw [e1, e2, e3, e4, e5, e6, e7]
  simp [kwGt, List.append_assoc]

theorem FileShape.neNilFile {c pv : Str} (h : FileShape c pv) : c ≠ [] := by
  obtain ⟨w1, w2, rfl, -⟩ := h
  simp [kwBoltAction]

/-! ### Shape of a successful shell-action-open match -/

theorem ShellShape.buildShell {c : Str} (h : ShellShape c) (v : Str) :
    matchShellAt (c ++ v) = some v := by
  obtain ⟨w1, rfl, hw1, hw1s⟩ := h
  unfold matchShellAt
  simp only [List.append_assoc, List.cons_append, List.nil_append]
  rw [litP_eq_some.mpr rfl, Option.some_bind]
  rw [ws1_append_left hw1 hw1s ⟨'t', _, by rw [kwTypeShell]; rfl, rfl⟩, Option.some_bind]
  exact litP_eq_some.mpr rfl

theorem matchShellAt_destruct {s r : Str} (h : matchShellAt s = some r) :
    ∃ c, s = c ++ r ∧ ShellShape c := by
  unfold matchShellAt at h
  rw [Option.bind_eq_some] at h
  obtain ⟨s1, h1, h⟩ := h
  rw [Option.bind_eq_some] at h
  obtain ⟨s2, h2, h3⟩ := h
  have e1 := litP_eq_some.mp h1
  obtain ⟨w1, e2, hw1, hw1s, _⟩ := ws1_eq_some h2
  have e3 := litP_eq_some.mp h3
  refine ⟨kwBoltAction ++ w1 ++ kwTypeShell, ?_, w1, rfl, hw1, hw1s⟩
  rw [e1, e2, e3]
  simp [List.append_assoc]

theorem ShellShape.neNilShell {c : Str} (h : ShellShape c) : c ≠ [] := by
  obtain ⟨w1, rfl, -⟩ := h
  simp [kwBoltAction]

/-! ### Leftmost-search lemmas -/

theorem matchArtifactAt_nil : matchArtifactAt ([] : Str) = none := rfl

theorem matchFileAt_nil : matchFileAt ([] : Str) = none := rfl

theorem matchShellAt_nil : matchShellAt ([] : Str) = none := rfl

/-- A helper: dropping inside a take is taking inside the drop. -/
theorem drop_take_comm {α : Type} (T : List α) (L q : Nat) (h : q ≤ L) :
    (T.take L).drop q = (T.drop q).take (L - q) := by
  rw [List.take_drop, Nat.add_sub_cancel' h]

/-- A match found inside a strict prefix of T is also found in T itself, at
the same position. -/
theorem matchArtifactAt_extend {s e iv tv r : Str}
    (h : matchArtifactAt s = some (iv, tv, r)) :
    matchArtifactAt (s ++ e) = some (iv, tv, r ++ e) := by
  obtain ⟨c, rfl, hc⟩ := matchArtifactAt_destruct h
  rw [List.append_assoc]
  exact hc.buildArt (r ++ e)

theorem matchFileAt_extend {s e pv r : Str} (h : matchFileAt s = some (pv, r)) :
    matchFileAt (s ++ e) = some (pv, r ++ e) := by
  obtain ⟨c, rfl, hc⟩ := matchFileAt_destruct h
  rw [List.append_assoc]
  exact hc.buildFile (r ++ e)

theorem matchShellAt_extend {s e r : Str} (h : matchShellAt s = some r) :
    matchShellAt (s ++ e) = some (r ++ e) := by
  obtain ⟨c, rfl, hc⟩ := matchShellAt_destruct h
  rw [List.append_assoc]
  exact hc.buildShell (r ++ e)

/-- Generic fact: a match at offset q of a take-prefix of T extends to a match
at offset q of T (artifact version). -/
theorem matchArtifactAt_take_some {T : Str} {L q : Nat} {iv tv r : Str}
    (hq : q ≤ L) (hLT : L ≤ T.length)
    (h : matchArtifactAt ((T.take L).drop q) = some (iv, tv, r)) :
    ∃ r', matchArtifactAt (T.drop q) = some (iv, tv, r') := by
  have hsplit : T.drop q = (T.take L).drop q ++ T.drop L := by
    have h1 : (T.take L) ++ T.drop L = T := List.take_append_drop L T
    calc T.drop q = ((T.take L) ++ T.drop L).drop q := by rw [h1]
    _ = (T.take L).drop q ++ T.drop L := by
        rw [List.drop_append_of_le_length]
        simpa [List.length_take] using Nat.le_min.mpr ⟨hq, Nat.le_trans hq hLT⟩
  exact ⟨r ++ T.drop L, hsplit ▸ matchArtifactAt_extend h⟩

theorem matchFileAt_take_some {T : Str} {L q : Nat} {pv r : Str}
    (hq : q ≤ L) (hLT : L ≤ T.length)
    (h : matchFileAt ((T.take L).drop q) = some (pv, r)) :
    ∃ r', matchFileAt (T.drop q) = some (pv, r') := by
  have hsplit : T.drop q = (T.take L).drop q ++ T.drop L := by
    have h1 : (T.take L) ++ T.drop L = T := List.take_append_drop L T
    calc T.drop q = ((T.take L) ++ T.drop L).drop q := by rw [h1]
    _ = (T.take L).drop q ++ T.drop L := by
        rw [List.drop_append_of_le_length]
        simpa [List.length_take] using Nat.le_min.mpr ⟨hq, Nat.le_trans hq hLT⟩
  exact ⟨r ++ T.drop L, hsplit ▸ matchFileAt_extend h⟩

theorem matchShellAt_take_some {T : Str} {L q : Nat} {r : Str}
    (hq : q ≤ L) (hLT : L ≤ T.length)
    (h : matchShellAt ((T.take L).drop q) = some r) :
    ∃ r', matchShellAt (T.drop q) = some r' := by
  have hsplit : T.drop q = (T.take L).drop q ++ T.drop L := by
    have h1 : (T.take L) ++ T.drop L = T := List.take_append_drop L T
    calc T.drop q = ((T.take L) ++ T.drop L).drop q := by rw [h1]
    _ = (T.take L).drop q ++ T.drop L := by
        rw [List.drop_append_of_le_length]
        simpa [List.length_take] using Nat.le_min.mpr ⟨hq, Nat.le_trans hq hLT⟩
  exact ⟨r ++ T.drop L, hsplit ▸ matchShellAt_extend h⟩

theorem findArtifact_of_matchAt {s : Str} {R : Str × Str × Str}
    (h : matchArtifactAt s = some R) : findArtifact s = some R := by
  cases s with
  | nil => rw [matchArtifactAt_nil] at h; exact absurd h (by simp)
  | cons c t =>
    unfold findArtifact
    rw [h]

theorem findFile_of_matchAt {s : Str} {R : Str × Str}
    (h : matchFileAt s = some R) : findFile s = some R := by
  cases s with
  | nil => rw [matchFileAt_nil] at h; exact absurd h (by simp)
  | cons c t =>
    unfold findFile
    rw [h]

theorem findShell_of_matchAt {s R : Str} (h : matchShellAt s = some R) :
    findShell s = some R := by
  cases s with
  | nil => rw [matchShellAt_nil] at h; exact absurd h (by simp)
  | cons c t =>
    unfold findShell
    rw [h]

theorem findArtifact_none {s : Str} (h : ∀ q, matchArtifactAt (s.drop q) = none) :
    findArtifact s = none := by
  induction s with
  | nil => rfl
  | cons c t ih =>
    unfold findArtifact
    have h0 := h 0
    simp only [List.drop_zero] at h0
    rw [h0]
    exact ih fun q => by simpa using h (q + 1)

theorem findFile_none {s : Str} (h : ∀ q, matchFileAt (s.drop q) = none) :
    findFile s = none := by
  induction s with
  | nil => rfl
  | cons c t ih =>
    unfold findFile
    have h0 := h 0
    simp only [List.drop_zero] at h0
    rw [h0]
    exact ih fun q => by simpa using h (q + 1)

theorem findShell_none {s : Str} (h : ∀ q, matchShellAt (s.drop q) = none) :
    findShell s = none := by
  induction s with
  | nil => rfl
  | cons c t ih =>
    unfold findShell
    have h0 := h 0
    simp only [List.drop_zero] at h0
    rw [h0]
    exact ih fun q => by simpa using h (q + 1)

/-- If no artifact-open match exists at any offset below B in T, then no take
of T up to B characters contains any artifact-open match at all. -/
theorem findArtifact_take_none {T : Str} {B L : Nat} (hLT : L ≤ T.length) (hLB : L ≤ B)
    (cert : ∀ q < B, matchArtifactAt (T.drop q) = none) :
    findArtifact (T.take L) = none := by
  apply findArtifact_none
  intro q
  by_cases hq : q < L
  · rcases hm : matchArtifactAt ((T.take L).drop q) with _ | ⟨iv, tv, r⟩
    · rfl
    · exfalso
      obtain ⟨r', hr'⟩ := matchArtifactAt_take_some (Nat.le_of_lt hq) hLT hm
      rw [cert q (Nat.lt_of_lt_of_le hq hLB)] at hr'
      exact Option.noConfusion hr'
  · rw [List.drop_eq_nil_of_le (by simp [List.length_take]; omega)]
    exact matchArtifactAt_nil

theorem findFile_take_none {T : Str} {B L : Nat} (hLT : L ≤ T.length) (hLB : L ≤ B)
    (cert : ∀ q < B, matchFileAt (T.drop q) = none) :
    findFile (T.take L) = none := by
  apply findFile_none
  intro q
  by_cases hq : q < L
  · rcases hm : matchFileAt ((T.take L).drop q) with _ | ⟨pv, r⟩
    · rfl
    · exfalso
      obtain ⟨r', hr'⟩ := matchFileAt_take_some (Nat.le_of_lt hq) hLT hm
      rw [cert q (Nat.lt_of_lt_of_le hq hLB)] at hr'
      exact Option.noConfusion hr'
  · rw [List.drop_eq_nil_of_le (by simp [List.length_take]; omega)]
    exact matchFileAt_nil

theorem findShell_take_none {T : Str} {B L : Nat} (hLT : L ≤ T.length) (hLB : L ≤ B)
    (cert : ∀ q < B, matchShellAt (T.drop q) = none) :
    findShell (T.take L) = none := by
  apply findShell_none
  intro q
  by_cases hq : q < L
  · rcases hm : matchShellAt ((T.take L).drop q) with _ | r
    · rfl
    · exfalso
      obtain ⟨r', hr'⟩ := matchShellAt_take_some (Nat.le_of_lt hq) hLT hm
      rw [cert q (Nat.lt_of_lt_of_le hq hLB)] at hr'
      exact Option.noConfusion hr'
  · rw [List.drop_eq_nil_of_le (by simp [List.length_take]; omega)]
    exact matchShellAt_nil

/-- When the artifact-open pattern matches at offset 0 of T consuming l
characters, any take of at least l characters finds exactly that match. -/
theorem findArtifact_take_fire {T iv tv T' : Str} {l L : Nat}
    (h0 : matchArtifactAt T = some (iv, tv, T')) (hl : T.length = l + T'.length)
    (hL : l ≤ L) : findArtifact (T.take L) = some (iv, tv, T'.take (L - l)) := by
  obtain ⟨c, hT, hc⟩ := matchArtifactAt_destruct h0
  have hcl : c.length = l := by
    have hlen := congrArg List.length hT
    simp only [List.length_append] at hlen
    omega
  have ht : T.take L = c ++ T'.take (L - l) := by
    have h2 : T.take L = (c ++ T').take (c.length + (L - l)) := by
      rw [hT]
      congr 1
      omega
    rw [h2, take_app]
  rw [ht]
  exact findArtifact_of_matchAt (hc.buildArt _)

theorem findFile_take_fire {T pv T' : Str} {l L : Nat}
    (h0 : matchFileAt T = some (pv, T')) (hl : T.length = l + T'.length)
    (hL : l ≤ L) : findFile (T.take L) = some (pv, T'.take (L - l)) := by
  obtain ⟨c, hT, hc⟩ := matchFileAt_destruct h0
  have hcl : c.length = l := by
    have hlen := congrArg List.length hT
    simp only [List.length_append] at hlen
    omega
  have ht : T.take L = c ++ T'.take (L - l) := by
    have h2 : T.take L = (c ++ T').take (c.length + (L - l)) := by
      rw [hT]
      congr 1
      omega
    rw [h2, take_app]
  rw [ht]
  exact findFile_of_matchAt (hc.buildFile _)

theorem findShell_take_fire {T T' : Str} {l L : Nat}
    (h0 : matchShellAt T = some T') (hl : T.length = l + T'.length)
    (hL : l ≤ L) : findShell (T.take L) = some (T'.take (L - l)) := by
  obtain ⟨c, hT, hc⟩ := matchShellAt_destruct h0
  have hcl : c.length = l := by
    have hlen := congrArg List.length hT
    simp only [List.length_append] at hlen
    omega
  have ht : T.take L = c ++ T'.take (L - l) := by
    have h2 : T.take L = (c ++ T').take (c.length + (L - l)) := by
      rw [hT]
      congr 1
      omega
    rw [h2, take_app]
  rw [ht]
  exact findShell_of_matchAt (hc.buildShell _)

/-! ### Substring-search lemmas -/

theorem splitAtSub_destruct {pat s b a : Str} (h : splitAtSub pat s = some (b, a)) :
    s = b ++ pat ++ a ∧ ∀ q < b.length, ¬ pat <+: s.drop q := by
  induction s generalizing b a with
  | nil =>
    unfold splitAtSub at h
    by_cases h1 : pat.isPrefixOf ([] : Str)
    · rw [if_pos h1] at h
      have hp : pat <+: ([] : Str) := List.isPrefixOf_iff_prefix.mp h1
      have hpe : pat = [] := List.prefix_nil.mp hp
      have hb := congrArg Prod.fst (Option.some.inj h)
      have ha := congrArg Prod.snd (Option.some.inj h)
      dsimp at hb ha
      subst hpe
      simp [← hb, ← ha]
    · rw [if_neg h1] at h
      exact absurd h (by simp)
  | cons c t ih =>
    unfold splitAtSub at h
    by_cases h1 : pat.isPrefixOf (c :: t)
    · rw [if_pos h1] at h
      have hp : pat <+: (c :: t) := List.isPrefixOf_iff_prefix.mp h1
      obtain ⟨rest, hrest⟩ := hp
      have hb := congrArg Prod.fst (Option.some.inj h)
      have ha := congrArg Prod.snd (Option.some.inj h)
      dsimp at hb ha
      subst hb
      constructor
      · rw [← ha, ← hrest]
        simp [List.drop_left]
      · intro q hq
        simp at hq
    · rw [if_neg h1] at h
      dsimp only at h
      rcases hrec : splitAtSub pat t with _ | ⟨b', a'⟩
      · rw [hrec] at h
        exact absurd h (by simp)
      · rw [hrec] at h
        dsimp at h
        have hb := congrArg Prod.fst (Option.some.inj h)
        have ha := congrArg Prod.snd (Option.some.inj h)
        dsimp at hb ha
        obtain ⟨ht, hcert⟩ := ih hrec
        subst ha
        constructor
        · rw [← hb, ht]
          simp
        · intro q hq
          cases q with
          | zero =>
            simp only [List.drop_zero]
            intro hcontra
            exact h1 (List.isPrefixOf_iff_prefix.mpr hcontra)
          | succ q' =>
            simp only [List.drop_succ_cons]
            apply hcert
            rw [← hb] at hq
            simpa using hq

theorem splitAtSub_none {pat s : Str} (h : ∀ q, ¬ pat <+: s.drop q) :
    splitAtSub pat s = none := by
  induction s with
  | nil =>
    unfold splitAtSub
    rw [if_neg]
    intro hc
    exact h 0 (by simpa using List.isPrefixOf_iff_prefix.mp hc)
  | cons c t ih =>
    unfold splitAtSub
    rw [if_neg]
    · dsimp only
      rw [ih fun q => by simpa using h (q + 1)]
      rfl
    · intro hc
      exact h 0 (by simpa using List.isPrefixOf_iff_prefix.mp hc)

theorem splitAtSub_build {pat b a : Str}
    (cert : ∀ q < b.length, ¬ pat <+: (b ++ pat ++ a).drop q) :
    splitAtSub pat (b ++ pat ++ a) = some (b, a) := by
  induction b with
  | nil =>
    unfold splitAtSub
    rw [if_pos]
    · simp [List.drop_left]
    · exact List.isPrefixOf_iff_prefix.mpr (by simp)
  | cons c b' ih =>
    unfold splitAtSub
    rw [if_neg]
    · have hrec : splitAtSub pat (b' ++ pat ++ a) = some (b', a) := by
        apply ih
        intro q hq
        have := cert (q + 1) (by simpa using Nat.succ_lt_succ hq)
        simpa using this
      simp only [List.cons_append]
      rw [hrec]
      rfl
    · intro hc
      have := cert 0 (by simp)
      simp only [List.drop_zero] at this
      exact this (List.isPrefixOf_iff_prefix.mp hc)

/-- An occurrence of pat inside a take-prefix of T is an occurrence in T whose
end lies within the take. -/
theorem sub_take_shift {T pat : Str} {L q : Nat} (hpat : pat ≠ []) (hLT : L ≤ T.length)
    (h : pat <+: (T.take L).drop q) : pat <+: T.drop q ∧ q + pat.length ≤ L := by
  by_cases hq : q ≤ L
  · rw [drop_take_comm T L q hq] at h
    refine ⟨h.trans (List.take_prefix _ _), ?_⟩
    have h2 := h.length_le
    rw [List.length_take, List.length_drop] at h2
    have h3 := Nat.le_trans h2 (Nat.min_le_left _ _)
    omega
  · exfalso
    rw [List.drop_eq_nil_of_le (by rw [List.length_take]; omega)] at h
    exact hpat (List.prefix_nil.mp h)

theorem splitAtSub_take_none {T pat : Str} {B L : Nat} (hpat : pat ≠ [])
    (cert : ∀ q < B, ¬ pat <+: T.drop q) (hL : L < B + pat.length)
    (hLT : L ≤ T.length) : splitAtSub pat (T.take L) = none := by
  apply splitAtSub_none
  intro q hsub
  obtain ⟨h1, h2⟩ := sub_take_shift hpat hLT hsub
  exact cert q (by omega) h1

/-- Splitting a take-prefix of T: take the text up to L characters.  If the
first occurrence of pat in T starts at B and the take extends past its end,
the split happens exactly there. -/
theorem take_eq_append_take {α : Type} (T : List α) {B L : Nat} (hBL : B ≤ L)
    (hBT : B ≤ T.length) : T.take L = T.take B ++ (T.drop B).take (L - B) := by
  have h1 : T.take L = ((T.take B) ++ T.drop B).take ((T.take B).length + (L - B)) := by
    rw [List.take_append_drop]
    congr 1
    rw [List.length_take]
    omega
  rw [h1, take_app]

theorem splitAtSub_take_fire {T pat : Str} {B L : Nat} (hpat : pat ≠ [])
    (cert : ∀ q < B, ¬ pat <+: T.drop q) (hfire : pat <+: T.drop B)
    (hL : B + pat.length ≤ L) (hLT : L ≤ T.length) :
    splitAtSub pat (T.take L) =
      some (T.take B, (T.drop (B + pat.length)).take (L - (B + pat.length))) := by
  obtain ⟨X, hX⟩ := hfire
  have hXd : X = T.drop (B + pat.length) := by
    have h5 := congrArg (List.drop pat.length) hX
    rw [List.drop_left] at h5
    rw [h5, List.drop_drop]
  have hsplit : T.take L = T.take B ++ pat ++ (T.drop (B + pat.length)).take (L - (B + pat.length)) := by
    rw [take_eq_append_take T (by omega : B ≤ L) (by omega : B ≤ T.length), ← hX]
    have h2 : (pat ++ X).take (L - B) = pat ++ X.take (L - B - pat.length) := by
      have h3 : (pat ++ X).take (L - B) = (pat ++ X).take (pat.length + (L - B - pat.length)) := by
        congr 1
        omega
      rw [h3, take_app]
    rw [h2, hXd, List.append_assoc]
    congr 3
    omega
  rw [hsplit]
  apply splitAtSub_build
  intro q hq
  intro hsub
  have hq2 : q < B := by
    rw [List.length_take] at hq
    omega
  rw [← hsplit] at hsub
  obtain ⟨h1, -⟩ := sub_take_shift hpat hLT hsub
  exact cert q hq2 h1

/-! ### The processing loop terminates: every continuing pass consumes input -/

theorem findArtifact_shrinks {s : Str} {iv tv r : Str}
    (h : findArtifact s = some (iv, tv, r)) : r.length < s.length := by
  induction s with
  | nil => exact absurd h (by simp [findArtifact])
  | cons c t ih =>
    unfold findArtifact at h
    rcases hm : matchArtifactAt (c :: t) with _ | R <;> rw [hm] at h
    · have := ih h
      simp only [List.length_cons]
      omega
    · obtain ⟨cc, hcc, hsh⟩ := matchArtifactAt_destruct (hm.trans (congrArg some (Option.some.inj h)))
      have hlen := congrArg List.length hcc
      simp only [List.length_append] at hlen
      have h0 := hsh.length_pos
      omega

theorem findFile_shrinks {s : Str} {pv r : Str}
    (h : findFile s = some (pv, r)) : r.length < s.length := by
  induction s with
  | nil => exact absurd h (by simp [findFile])
  | cons c t ih =>
    unfold findFile at h
    rcases hm : matchFileAt (c :: t) with _ | R <;> rw [hm] at h
    · have := ih h
      simp only [List.length_cons]
      omega
    · obtain ⟨cc, hcc, hsh⟩ := matchFileAt_destruct (hm.trans (congrArg some (Option.some.inj h)))
      have hlen := congrArg List.length hcc
      simp only [List.length_append] at hlen
      have h0 : cc ≠ [] := hsh.neNilFile
      have h1 : 0 < cc.length := by
        cases hc2 : cc with
        | nil => exact absurd hc2 h0
        | cons x y => simp
      omega

theorem findShell_shrinks {s : Str} {r : Str}
    (h : findShell s = some r) : r.length < s.length := by
  induction s with
  | nil => exact absurd h (by simp [findShell])
  | cons c t ih =>
    unfold findShell at h
    rcases hm : matchShellAt (c :: t) with _ | R <;> rw [hm] at h
    · have := ih h
      simp only [List.length_cons]
      omega
    · obtain ⟨cc, hcc, hsh⟩ := matchShellAt_destruct (hm.trans (congrArg some (Option.some.inj h)))
      have hlen := congrArg List.length hcc
      simp only [List.length_append] at hlen
      have h0 : cc ≠ [] := hsh.neNilShell
      have h1 : 0 < cc.length := by
        cases hc2 : cc with
        | nil => exact absurd hc2 h0
        | cons x y => simp
      omega

theorem splitAtSub_shrinks {pat s b a : Str} (hpat : pat ≠ [])
    (h : splitAtSub pat s = some (b, a)) : a.length < s.length := by
  obtain ⟨hs, -⟩ := splitAtSub_destruct h
  have hlen := congrArg List.length hs
  simp only [List.length_append] at hlen
  have h1 : 0 < pat.length := by
    cases hp : pat with
    | nil => exact absurd hp hpat
    | cons x y => simp
  omega

theorem step_true_shrinks {env : Env} {s s' : Session} {evs : List Ev}
    (h : step env s = (s', evs, true)) : s'.buffer.length < s.buffer.length := by
  unfold step at h
  cases hst : s.state <;> rw [hst] at h <;> dsimp only at h
  case IDLE =>
    unfold handleIdle at h
    rcases hf : findArtifact s.buffer with _ | ⟨idv, tv, rest⟩ <;> rw [hf] at h
    · rcases hc : splitAtSub closeArtifactKw s.buffer with _ | ⟨b, a⟩ <;> rw [hc] at h <;>
        exact absurd (congrArg (fun x => x.2.2) h) (by simp)
    · have hbuf : s'.buffer = rest := by
        have := congrArg (fun x => x.1.buffer) h
        exact this.symm
      rw [hbuf]
      exact findArtifact_shrinks hf
  case IN_ARTIFACT =>
    unfold handleInArtifact at h
    rcases hf : findFile s.buffer with _ | ⟨pv, rest⟩ <;> rw [hf] at h
    · rcases hsh : findShell s.buffer with _ | rest <;> rw [hsh] at h
      · rcases hc : splitAtSub closeArtifactKw s.buffer with _ | ⟨b, a⟩ <;> rw [hc] at h
        · exact absurd (congrArg (fun x => x.2.2) h) (by simp)
        · have hbuf : s'.buffer = a := by
            have := congrArg (fun x => x.1.buffer) h
            exact this.symm
          rw [hbuf]
          exact splitAtSub_shrinks (by simp [closeArtifactKw]) hc
      · have hbuf : s'.buffer = rest := by
          have := congrArg (fun x => x.1.buffer) h
          exact this.symm
        rw [hbuf]
        exact findShell_shrinks hsh
    · have hbuf : s'.buffer = rest := by
        have := congrArg (fun x => x.1.buffer) h
        exact this.symm
      rw [hbuf]
      exact findFile_shrinks hf
  case IN_FILE_ACTION =>
    unfold handleInFileAction at h
    rcases hc : splitAtSub closeActionKw s.buffer with _ | ⟨b, a⟩ <;> rw [hc] at h <;>
      dsimp only at h
    · exact absurd (congrArg (fun x => x.2.2) h) (by simp)
    · have hbuf : s'.buffer = a := by
        have := congrArg (fun x => x.1.buffer) h
        exact this.symm
      rw [hbuf]
      exact splitAtSub_shrinks (by simp [closeActionKw]) hc
  case IN_SHELL_ACTION =>
    unfold handleInShellAction at h
    rcases hc : splitAtSub closeActionKw s.buffer with _ | ⟨b, a⟩ <;> rw [hc] at h <;>
      dsimp only at h
    · exact absurd (congrArg (fun x => x.2.2) h) (by simp)
    · have hbuf : s'.buffer = a := by
        have := congrArg (fun x => x.1.buffer) h
        exact this.symm
      rw [hbuf]
      exact splitAtSub_shrinks (by simp [closeActionKw]) hc

theorem processBufferFuel_eq {env : Env} :
    ∀ f1 : Nat, ∀ s : Session, ∀ f2 : Nat, s.buffer.length < f1 → s.buffer.length < f2 →
      processBufferFuel env f1 s = processBufferFuel env f2 s := by
  intro f1
  induction f1 with
  | zero => intro s f2 h1 h2; omega
  | succ n ih =>
    intro s f2 h1 h2
    cases f2 with
    | zero => omega
    | succ m =>
      unfold processBufferFuel
      rcases hstep : step env s with ⟨s', evs, b⟩
      cases b
      · rfl
      · dsimp only
        have hless := step_true_shrinks hstep
        rw [ih s' m (by omega) (by omega)]

theorem processBuffer_unfold (env : Env) (s : Session) :
    processBuffer env s =
      match step env s with
      | (s', evs, true) => ((processBuffer env s').1, evs ++ (processBuffer env s').2)
      | (s', evs, false) => (s', evs) := by
  unfold processBuffer
  conv_lhs => rw [processBufferFuel]
  rcases hstep : step env s with ⟨s', evs, b⟩
  cases b
  · rfl
  · dsimp only
    have hless := step_true_shrinks hstep
    rw [processBufferFuel_eq s.buffer.length s' (s'.buffer.length + 1) (by omega) (by omega)]

/-! ### The executor surfaces no event from directory creation -/

theorem mkdirEvents_eq_nil (o : MkdirOutcome) : mkdirEvents o = [] := by
  cases o <;> rfl

theorem ensureDirectory_eq_nil (env : Env) (d : Str) : ensureDirectory env d = [] := by
  unfold ensureDirectory
  induction cumPaths d with
  | nil => rfl
  | cons p ps ih =>
    simp only [List.map_cons, List.flatten_cons, ih, List.append_nil]
    exact mkdirEvents_eq_nil _

theorem writeFile_eq (env : Env) (p c : Str) :
    writeFile env p c =
      if env.attached = false then []
      else if env.writeOk p then [Ev.fileWritten p] else [Ev.errorEv p] := by
  unfold writeFile
  by_cases ha : env.attached = false
  · rw [if_pos ha, if_pos ha]
  · rw [if_neg ha, if_neg ha]
    rw [ensureDirectory_eq_nil]
    by_cases hd : dirOf p ≠ [] <;> simp [hd]

/-! ### The raw-text observer -/

theorem writeFile_no_text (env : Env) (p c : Str) :
    textPayloads (writeFile env p c) = [] := by
  rw [writeFile_eq]
  by_cases ha : env.attached = false
  · rw [if_pos ha]; rfl
  · rw [if_neg ha]
    by_cases hw : env.writeOk p <;> simp [hw, textPayloads]

theorem step_no_text (env : Env) (s : Session) : textPayloads (step env s).2.1 = [] := by
  unfold step handleIdle handleInArtifact handleInFileAction handleInShellAction
  cases s.state <;> dsimp only
  case IDLE =>
    rcases findArtifact s.buffer with _ | ⟨idv, tv, rest⟩ <;> dsimp only
    · rcases splitAtSub closeArtifactKw s.buffer with _ | ⟨b, a⟩ <;> rfl
    · rfl
  case IN_ARTIFACT =>
    rcases findFile s.buffer with _ | ⟨pv, rest⟩ <;> dsimp only
    · rcases findShell s.buffer with _ | rest <;> dsimp only
      · rcases splitAtSub closeArtifactKw s.buffer with _ | ⟨b, a⟩ <;> rfl
      · rfl
    · rfl
  case IN_FILE_ACTION =>
    rcases splitAtSub closeActionKw s.buffer with _ | ⟨b, a⟩ <;> dsimp only
    · rfl
    · rcases s.currentAction with _ | ca <;> dsimp only
      · rfl
      · rcases ca.filePath with _ | p <;> dsimp only
        · rfl
        · by_cases hpc : p ≠ [] ∧ trimL (s.contentBuffer ++ b) ≠ []
          · rw [if_pos hpc]
            have h1 := writeFile_no_text env p (trimL (s.contentBuffer ++ b))
            unfold textPayloads at h1 ⊢
            rw [List.filterMap_append, h1]
            rfl
          · rw [if_neg hpc]
            rfl
  case IN_SHELL_ACTION =>
    rcases splitAtSub closeActionKw s.buffer with _ | ⟨b, a⟩ <;> dsimp only
    · rfl
    · by_cases hc : trimL (s.contentBuffer ++ b) ≠ []
      · rw [if_pos hc]
        rfl
      · rw [if_neg hc]
        rfl

theorem processBuffer_no_text (env : Env) :
    ∀ n : Nat, ∀ s : Session, s.buffer.length = n →
      textPayloads (processBuffer env s).2 = [] := by
  intro n
  induction n using Nat.strong_induction_on with
  | _ n ih =>
    intro s hs
    rw [processBuffer_unfold]
    rcases hstep : step env s with ⟨s', evs, b⟩
    have hevs : textPayloads evs = [] := by
      have := step_no_text env s
      rw [hstep] at this
      exact this
    cases b
    · exact hevs
    · dsimp only
      unfold textPayloads at hevs ⊢
      rw [List.filterMap_append, hevs, List.nil_append]
      exact ih s'.buffer.length (hs ▸ step_true_shrinks hstep) s' rfl

/-! ### Shared step-characterization lemmas -/

/-- The buffered pass of both action states: close literal absent. -/
theorem step_flush (env : Env) (s : Session)
    (hst : s.state = .IN_FILE_ACTION ∨ s.state = .IN_SHELL_ACTION)
    (hnone : splitAtSub closeActionKw s.buffer = none) :
    step env s = (⟨s.state, s.buffer.drop (s.buffer.length - closeActionKw.length),
      s.currentAction,
      s.contentBuffer ++ s.buffer.take (s.buffer.length - closeActionKw.length)⟩,
      [], false) := by
  unfold step
  rcases hst with h | h <;> rw [h] <;> dsimp only
  · unfold handleInFileAction
    rw [hnone]
    dsimp only
    rw [h]
  · unfold handleInShellAction
    rw [hnone]
    dsimp only
    rw [h]

/-- The dispatching pass of IN_FILE_ACTION: close literal present. -/
theorem step_file_dispatch (env : Env) (s : Session) (before after p : Str)
    (hst : s.state = .IN_FILE_ACTION)
    (hca : s.currentAction = some ⟨.file, some p⟩)
    (hsplit : splitAtSub closeActionKw s.buffer = some (before, after)) :
    step env s = (⟨.IN_ARTIFACT, after, none, []⟩,
      (if p ≠ [] ∧ trimL (s.contentBuffer ++ before) ≠ [] then
        writeFile env p (trimL (s.contentBuffer ++ before)) ++
          [Ev.actionEnd ⟨.file, some p, trimL (s.contentBuffer ++ before)⟩]
      else []), true) := by
  unfold step
  rw [hst]
  dsimp only
  unfold handleInFileAction
  rw [hsplit]
  dsimp only
  rw [hca]

/-- The dispatching pass of IN_SHELL_ACTION: close literal present. -/
theorem step_shell_dispatch (env : Env) (s : Session) (before after : Str)
    (hst : s.state = .IN_SHELL_ACTION)
    (hsplit : splitAtSub closeActionKw s.buffer = some (before, after)) :
    step env s = (⟨.IN_ARTIFACT, after, none, []⟩,
      (if trimL (s.contentBuffer ++ before) ≠ [] then
        [Ev.shellCommand (trimL (s.contentBuffer ++ before)),
         Ev.actionEnd ⟨.shell, none, trimL (s.contentBuffer ++ before)⟩]
      else []), true) := by
  unfold step
  rw [hst]
  dsimp only
  unfold handleInShellAction
  rw [hsplit]

/-! ### More substring-search facts -/

theorem splitAtSub_isSome_of {pat s : Str} {q : Nat} (h : pat <+: s.drop q) :
    (splitAtSub pat s).isSome := by
  induction s generalizing q with
  | nil =>
    rw [List.drop_nil] at h
    have : pat = [] := List.prefix_nil.mp h
    subst this
    unfold splitAtSub
    rw [if_pos (by simp [List.isPrefixOf_iff_prefix])]
    rfl
  | cons c t ih =>
    unfold splitAtSub
    by_cases h1 : pat.isPrefixOf (c :: t)
    · rw [if_pos h1]
      rfl
    · rw [if_neg h1]
      dsimp only
      cases q with
      | zero =>
        rw [List.drop_zero] at h
        exact absurd (List.isPrefixOf_iff_prefix.mpr h) h1
      | succ q' =>
        rw [List.drop_succ_cons] at h
        have := ih h
        rcases hsp : splitAtSub pat t with _ | ba
        · rw [hsp] at this
          exact absurd this (by simp)
        · rfl

theorem splitAtSub_none_all {pat s : Str} (h : splitAtSub pat s = none) :
    ∀ q, ¬ pat <+: s.drop q := by
  intro q hq
  have := splitAtSub_isSome_of hq
  rw [h] at this
  exact absurd this (by simp)

/-- A prefix of an append that fits inside the first part is a prefix of the
first part. -/
theorem prefix_restrict {α : Type} {x a b : List α} (h : x <+: a ++ b)
    (hl : x.length ≤ a.length) : x <+: a :=
  List.prefix_of_prefix_length_le h (List.prefix_append a b) hl

/-! ### The flush invariant -/

theorem flushInv_nil (buf : Str) : FlushInv [] buf := by
  intro q hq
  simp at hq

theorem flushInv_extend {cb buf c : Str} (h : FlushInv cb buf) :
    FlushInv cb (buf ++ c) := by
  intro q hq
  obtain ⟨h1, h2⟩ := h q hq
  refine ⟨by simp only [List.length_append]; omega, ?_⟩
  intro hocc
  apply h2
  have he : (cb ++ (buf ++ c)).drop q = (cb ++ buf).drop q ++ c := by
    rw [← List.append_assoc]
    rw [List.drop_append_of_le_length]
    simp only [List.length_append]
    omega
  rw [he] at hocc
  apply prefix_restrict hocc
  rw [List.length_drop, List.length_append]
  omega

theorem flushInv_flush {cb buf : Str}
    (hnone : splitAtSub closeActionKw buf = none) (h : FlushInv cb buf) :
    FlushInv (cb ++ buf.take (buf.length - closeActionKw.length))
      (buf.drop (buf.length - closeActionKw.length)) := by
  have hjoin : (cb ++ buf.take (buf.length - closeActionKw.length)) ++
      buf.drop (buf.length - closeActionKw.length) = cb ++ buf := by
    rw [List.append_assoc, List.take_append_drop]
  intro q hq
  rw [hjoin]
  have hlq : (cb ++ buf.take (buf.length - closeActionKw.length)).length =
      cb.length + (buf.length - closeActionKw.length) := by
    rw [List.length_append, List.length_take]
    omega
  rw [hlq] at hq
  have hlens : (cb ++ buf.take (buf.length - closeActionKw.length)).length +
      (buf.drop (buf.length - closeActionKw.length)).length = cb.length + buf.length := by
    rw [hlq, List.length_drop]
    omega
  rw [hlens]
  by_cases hql : q < cb.length
  · obtain ⟨h1, h2⟩ := h q hql
    exact ⟨by omega, h2⟩
  · have hk : 0 < buf.length - closeActionKw.length := by omega
    refine ⟨by omega, ?_⟩
    intro hocc
    have he : (cb ++ buf).drop q = buf.drop (q - cb.length) := by
      conv_lhs => rw [show q = cb.length + (q - cb.length) by omega]
      exact drop_app cb buf _
    rw [he] at hocc
    exact splitAtSub_none_all hnone _ hocc

/-- With the invariant, a close-free current buffer means the whole
accumulated text is close-free. -/
theorem flushInv_total_none {cb buf : Str} (h : FlushInv cb buf)
    (hnone : splitAtSub closeActionKw buf = none) :
    splitAtSub closeActionKw (cb ++ buf) = none := by
  apply splitAtSub_none
  intro q hocc
  by_cases hql : q < cb.length
  · exact (h q hql).2 hocc
  · have he : (cb ++ buf).drop q = buf.drop (q - cb.length) := by
      conv_lhs => rw [show q = cb.length + (q - cb.length) by omega]
      exact drop_app cb buf _
    rw [he] at hocc
    exact splitAtSub_none_all hnone _ hocc

/-! ### Chunk-level behaviour inside an action -/

theorem runChunks_cons (env : Env) (s : Session) (c : Str) (cs : List Str) :
    runChunks env s (c :: cs) =
      ((runChunks env (processChunk env s c).1 cs).1,
       (processChunk env s c).2 ++ (runChunks env (processChunk env s c).1 cs).2) := rfl

theorem processChunk_eq (env : Env) (s : Session) (c : Str) :
    processChunk env s c =
      ((processBuffer env { s with buffer := s.buffer ++ c }).1,
       Ev.text c :: (processBuffer env { s with buffer := s.buffer ++ c }).2) := rfl

theorem actionEnds_append (a b : List Ev) :
    actionEnds (a ++ b) = actionEnds a ++ actionEnds b :=
  List.filterMap_append a b _

theorem firstActionEnd_append_of_nil {a : List Ev} (b : List Ev)
    (h : actionEnds a = []) : firstActionEnd (a ++ b) = firstActionEnd b := by
  unfold firstActionEnd
  rw [actionEnds_append, h, List.nil_append]

theorem actionEnds_writeFile (env : Env) (p c : Str) :
    actionEnds (writeFile env p c) = [] := by
  rw [writeFile_eq]
  by_cases ha : env.attached = false
  · rw [if_pos ha]; rfl
  · rw [if_neg ha]
    by_cases hw : env.writeOk p <;> simp [hw, actionEnds]

theorem nonText_append (a b : List Ev) : nonText (a ++ b) = nonText a ++ nonText b :=
  List.filter_append _ _

/-- Feeding one chunk while inside an action, with the close literal still
absent: a single silent flush. -/
theorem feed_flush (env : Env) (s : Session) (c : Str)
    (hst : s.state = .IN_FILE_ACTION ∨ s.state = .IN_SHELL_ACTION)
    (hnone : splitAtSub closeActionKw (s.buffer ++ c) = none) :
    processChunk env s c = (⟨s.state,
      (s.buffer ++ c).drop ((s.buffer ++ c).length - closeActionKw.length),
      s.currentAction,
      s.contentBuffer ++ (s.buffer ++ c).take ((s.buffer ++ c).length - closeActionKw.length)⟩,
      [Ev.text c]) := by
  rw [processChunk_eq, processBuffer_unfold]
  have hs := step_flush env { s with buffer := s.buffer ++ c } (by exact hst) (by exact hnone)
  rw [hs]

/-- The first occurrence of the close literal in the total stream, when the
invariant holds for the consumed part, sits exactly where the current
buffer-plus-chunk finds it. -/
theorem close_split_position {cb buf c fl before after b1 a1 : Str}
    (hInv : FlushInv cb buf)
    (htotal : splitAtSub closeActionKw (cb ++ buf ++ (c ++ fl)) = some (before, after))
    (hbc : splitAtSub closeActionKw (buf ++ c) = some (b1, a1)) :
    before = cb ++ b1 ∧ after = a1 ++ fl := by
  obtain ⟨ht, certT⟩ := splitAtSub_destruct htotal
  obtain ⟨hb, certB⟩ := splitAtSub_destruct hbc
  have hT2 : cb ++ buf ++ (c ++ fl) = (cb ++ b1) ++ closeActionKw ++ (a1 ++ fl) := by
    calc cb ++ buf ++ (c ++ fl) = cb ++ (buf ++ c) ++ fl := by
          simp [List.append_assoc]
    _ = cb ++ (b1 ++ closeActionKw ++ a1) ++ fl := by rw [hb]
    _ = (cb ++ b1) ++ closeActionKw ++ (a1 ++ fl) := by simp [List.append_assoc]
  have certT2 : ∀ q < (cb ++ b1).length,
      ¬ closeActionKw <+: (cb ++ buf ++ (c ++ fl)).drop q := by
    intro q hq hocc
    rw [List.length_append] at hq
    by_cases hql : q < cb.length
    · obtain ⟨hlen, hno⟩ := hInv q hql
      apply hno
      have he : (cb ++ buf ++ (c ++ fl)).drop q = (cb ++ buf).drop q ++ (c ++ fl) := by
        rw [List.drop_append_of_le_length]
        rw [List.length_append]
        omega
      rw [he] at hocc
      apply prefix_restrict hocc
      rw [List.length_drop, List.length_append]
      omega
    · have hlenB : b1.length + closeActionKw.length ≤ (buf ++ c).length := by
        have := congrArg List.length hb
        simp only [List.length_append] at this ⊢
        omega
      have hj : q - cb.length < b1.length := by omega
      apply certB (q - cb.length) hj
      have he : (cb ++ buf ++ (c ++ fl)).drop q = (buf ++ c).drop (q - cb.length) ++ fl := by
        calc (cb ++ buf ++ (c ++ fl)).drop q = (cb ++ ((buf ++ c) ++ fl)).drop q := by
              simp [List.append_assoc]
        _ = ((buf ++ c) ++ fl).drop (q - cb.length) := by
              conv_lhs => rw [show q = cb.length + (q - cb.length) by omega]
              exact drop_app cb _ _
        _ = (buf ++ c).drop (q - cb.length) ++ fl := by
              rw [List.drop_append_of_le_length]
              simp only [List.length_append] at hlenB ⊢
              omega
      rw [he] at hocc
      apply prefix_restrict hocc
      rw [List.length_drop]
      simp only [List.length_append] at hlenB ⊢
      omega
  -- uniqueness of the certified split
  have hlen_eq : before.length = (cb ++ b1).length := by
    by_contra hne
    rcases Nat.lt_or_ge before.length (cb ++ b1).length with hlt | hge
    · apply certT2 before.length hlt
      rw [ht, List.append_assoc, List.drop_left]
      exact List.prefix_append _ _
    · have hlt2 : (cb ++ b1).length < before.length := by omega
      apply certT (cb ++ b1).length hlt2
      rw [hT2, List.append_assoc, List.drop_left]
      exact List.prefix_append _ _
  have hbefore : before = cb ++ b1 := by
    have e1 : before = (cb ++ buf ++ (c ++ fl)).take before.length := by
      rw [ht, List.append_assoc]
      exact (List.take_left before _).symm
    have e2 : cb ++ b1 = (cb ++ buf ++ (c ++ fl)).take (cb ++ b1).length := by
      rw [hT2, List.append_assoc]
      exact (List.take_left (cb ++ b1) _).symm
    rw [e1, e2, hlen_eq]
  refine ⟨hbefore, ?_⟩
  have := ht.symm.trans hT2
  rw [hbefore] at this
  have h2 := List.append_cancel_left ((List.append_assoc _ _ _ ▸ this : (cb ++ b1) ++ (closeActionKw ++ after) = ((cb ++ b1) ++ closeActionKw) ++ (a1 ++ fl)).trans (List.append_assoc _ _ _))
  exact List.append_cancel_left h2

/-- While the close literal never appears in the cumulative stream, a session
inside an action only flushes silently: no non-text event is ever emitted. -/
theorem c8_run_none (env : Env) (st : PState) (ca : Option CurAction)
    (hst : st = .IN_FILE_ACTION ∨ st = .IN_SHELL_ACTION) :
    ∀ (chunks : List Str) (cb buf : Str), FlushInv cb buf →
      splitAtSub closeActionKw (cb ++ buf ++ chunks.flatten) = none →
      nonText (runChunks env ⟨st, buf, ca, cb⟩ chunks).2 = [] := by
  intro chunks
  induction chunks with
  | nil => intro cb buf _ _; rfl
  | cons c cs ih =>
    intro cb buf hInv htotal
    have hnone_bc : splitAtSub closeActionKw (buf ++ c) = none := by
      apply splitAtSub_none
      intro q hocc
      apply splitAtSub_none_all htotal (cb.length + q)
      have hqlen : q + closeActionKw.length ≤ (buf ++ c).length := by
        have h13 : 0 < closeActionKw.length := by decide
        have h2 := hocc.length_le
        rw [List.length_drop] at h2
        omega
      have he : (cb ++ buf ++ (c :: cs).flatten).drop (cb.length + q) =
          (buf ++ c).drop q ++ cs.flatten := by
        calc (cb ++ buf ++ (c :: cs).flatten).drop (cb.length + q)
            = (cb ++ ((buf ++ c) ++ cs.flatten)).drop (cb.length + q) := by
              simp [List.append_assoc, List.flatten_cons]
        _ = ((buf ++ c) ++ cs.flatten).drop q := drop_app cb _ q
        _ = (buf ++ c).drop q ++ cs.flatten := by
              rw [List.drop_append_of_le_length]
              have h13 : 0 < closeActionKw.length := by decide
              omega
      rw [he]
      exact hocc.trans (List.prefix_append _ _)
    rw [runChunks_cons, feed_flush env _ c (by exact hst) (by exact hnone_bc)]
    dsimp only
    rw [nonText_append]
    have h1 : nonText [Ev.text c] = [] := rfl
    rw [h1, List.nil_append]
    have hInv1 := flushInv_flush hnone_bc (flushInv_extend hInv)
    apply ih _ _ hInv1
    have hstr : (cb ++ (buf ++ c).take ((buf ++ c).length - closeActionKw.length)) ++
        (buf ++ c).drop ((buf ++ c).length - closeActionKw.length) ++ cs.flatten =
        cb ++ buf ++ (c :: cs).flatten := by
      calc (cb ++ (buf ++ c).take ((buf ++ c).length - closeActionKw.length)) ++
          (buf ++ c).drop ((buf ++ c).length - closeActionKw.length) ++ cs.flatten
          = cb ++ (((buf ++ c).take ((buf ++ c).length - closeActionKw.length) ++
              (buf ++ c).drop ((buf ++ c).length - closeActionKw.length)) ++ cs.flatten) := by
            simp [List.append_assoc]
      _ = cb ++ ((buf ++ c) ++ cs.flatten) := by rw [List.take_append_drop]
      _ = cb ++ buf ++ (c :: cs).flatten := by simp [List.append_assoc, List.flatten_cons]
    rw [hstr]
    exact htotal

theorem rejoin (cb buf c : Str) (cs : List Str) (n : Nat) :
    (cb ++ (buf ++ c).take n) ++ (buf ++ c).drop n ++ cs.flatten =
      cb ++ buf ++ (c :: cs).flatten := by
  calc (cb ++ (buf ++ c).take n) ++ (buf ++ c).drop n ++ cs.flatten
      = cb ++ (((buf ++ c).take n ++ (buf ++ c).drop n) ++ cs.flatten) := by
        simp [List.append_assoc]
  _ = cb ++ ((buf ++ c) ++ cs.flatten) := by rw [List.take_append_drop]
  _ = cb ++ buf ++ (c :: cs).flatten := by simp [List.append_assoc, List.flatten_cons]

theorem actionEnds_cons_text (c : Str) (X : List Ev) :
    actionEnds (Ev.text c :: X) = actionEnds X := rfl

theorem drop_suffix_none {B : Str} {k : Nat}
    (h : splitAtSub closeActionKw B = none) :
    splitAtSub closeActionKw (B.drop k) = none := by
  apply splitAtSub_none
  intro j hocc
  rw [List.drop_drop] at hocc
  exact splitAtSub_none_all h _ hocc

/-- A file action started inside an artifact dispatches, as its first
action-end event, exactly the trimmed text that precedes the first complete
close literal of the cumulative stream — independent of the chunking. -/
theorem c8_run_file (env : Env) (p : Str) :
    ∀ (chunks : List Str) (cb buf before after : Str), FlushInv cb buf →
      splitAtSub closeActionKw (cb ++ buf) = none →
      splitAtSub closeActionKw (cb ++ buf ++ chunks.flatten) = some (before, after) →
      p ≠ [] → trimL before ≠ [] →
      firstActionEnd (runChunks env ⟨.IN_FILE_ACTION, buf, some ⟨.file, some p⟩, cb⟩ chunks).2 =
        some ⟨.file, some p, trimL before⟩ := by
  intro chunks
  induction chunks with
  | nil =>
    intro cb buf before after hInv hnone htotal hp hc
    rw [show cb ++ buf ++ ([] : List Str).flatten = cb ++ buf by simp] at htotal
    rw [htotal] at hnone
    exact absurd hnone (by simp)
  | cons c cs ih =>
    intro cb buf before after hInv hnone htotal hp hc
    rcases hbc : splitAtSub closeActionKw (buf ++ c) with _ | ⟨b1, a1⟩
    · rw [runChunks_cons, feed_flush env _ c (Or.inl rfl) (by exact hbc)]
      dsimp only
      rw [firstActionEnd_append_of_nil (a := [Ev.text c]) _ rfl]
      apply ih _ _ before after (flushInv_flush hbc (flushInv_extend hInv)) ?_ ?_ hp hc
      · exact flushInv_total_none (flushInv_flush hbc (flushInv_extend hInv))
          (drop_suffix_none hbc)
      · rw [rejoin]
        exact htotal
    · rw [show (c :: cs).flatten = c ++ cs.flatten from List.flatten_cons] at htotal
      obtain ⟨hbefore, hafter⟩ := close_split_position hInv htotal hbc
      rw [runChunks_cons, processChunk_eq, processBuffer_unfold]
      rw [step_file_dispatch env _ b1 a1 p rfl rfl (by exact hbc)]
      dsimp only
      have hct : trimL (cb ++ b1) = trimL before := by rw [hbefore]
      rw [if_pos ⟨hp, by rw [hct]; exact hc⟩]
      unfold firstActionEnd
      rw [List.cons_append, actionEnds_cons_text, List.append_assoc, actionEnds_append,
        actionEnds_append, actionEnds_writeFile, hct]
      rfl

/-- The shell counterpart of c8_run_file. -/
theorem c8_run_shell (env : Env) :
    ∀ (chunks : List Str) (cb buf before after : Str), FlushInv cb buf →
      splitAtSub closeActionKw (cb ++ buf) = none →
      splitAtSub closeActionKw (cb ++ buf ++ chunks.flatten) = some (before, after) →
      trimL before ≠ [] →
      firstActionEnd (runChunks env ⟨.IN_SHELL_ACTION, buf, some ⟨.shell, none⟩, cb⟩ chunks).2 =
        some ⟨.shell, none, trimL before⟩ := by
  intro chunks
  induction chunks with
  | nil =>
    intro cb buf before after hInv hnone htotal hc
    rw [show cb ++ buf ++ ([] : List Str).flatten = cb ++ buf by simp] at htotal
    rw [htotal] at hnone
    exact absurd hnone (by simp)
  | cons c cs ih =>
    intro cb buf before after hInv hnone htotal hc
    rcases hbc : splitAtSub closeActionKw (buf ++ c) with _ | ⟨b1, a1⟩
    · rw [runChunks_cons, feed_flush env _ c (Or.inr rfl) (by exact hbc)]
      dsimp only
      rw [firstActionEnd_append_of_nil (a := [Ev.text c]) _ rfl]
      apply ih _ _ before after (flushInv_flush hbc (flushInv_extend hInv)) ?_ ?_ hc
      · exact flushInv_total_none (flushInv_flush hbc (flushInv_extend hInv))
          (drop_suffix_none hbc)
      · rw [rejoin]
        exact htotal
    · rw [show (c :: cs).flatten = c ++ cs.flatten from List.flatten_cons] at htotal
      obtain ⟨hbefore, hafter⟩ := close_split_position hInv htotal hbc
      rw [runChunks_cons, processChunk_eq, processBuffer_unfold]
      rw [step_shell_dispatch env _ b1 a1 rfl (by exact hbc)]
      dsimp only
      have hct : trimL (cb ++ b1) = trimL before := by rw [hbefore]
      rw [if_pos (by rw [hct]; exact hc)]
      unfold firstActionEnd
      rw [List.cons_append, actionEnds_cons_text, List.append_assoc, actionEnds_append, hct]
      rfl

/-! ### Claim C8: no partial close delimiter ever leaks into a dispatched action -/

/-- C8: starting from the state right after an action-open tag, for every way
of chunking the subsequent stream: if the close literal never occurs in the
cumulative stream, no non-text event is ever emitted (no Action is surfaced
from a partial payload); and when it does occur, the first dispatched
action-end carries exactly the trimmed text preceding the first complete
close literal of the cumulative stream — so text of a close delimiter split
across chunk boundaries never leaks into a dispatched file's content or a
shell command, and an Action is only produced once its closing delimiter has
been fully observed. -/
theorem C8_theorem :
    (∀ (p : Str) (chunks : List Str),
      (splitAtSub closeActionKw chunks.flatten = none →
        nonText (runChunks envOK (fileStart p) chunks).2 = []) ∧
      (∀ before after, splitAtSub closeActionKw chunks.flatten = some (before, after) →
        p ≠ [] → trimL before ≠ [] →
        firstActionEnd (runChunks envOK (fileStart p) chunks).2 =
          some ⟨.file, some p, trimL before⟩))
    ∧ (∀ chunks : List Str,
      (splitAtSub closeActionKw chunks.flatten = none →
        nonText (runChunks envOK shellStart chunks).2 = []) ∧
      (∀ before after, splitAtSub closeActionKw chunks.flatten = some (before, after) →
        trimL before ≠ [] →
        firstActionEnd (runChunks envOK shellStart chunks).2 =
          some ⟨.shell, none, trimL before⟩)) := by
  have hflat : ∀ chunks : List Str, ([] : Str) ++ ([] : Str) ++ chunks.flatten = chunks.flatten := by
    intro chunks
    simp
  constructor
  · intro p chunks
    constructor
    · intro hnone
      exact c8_run_none envOK _ _ (Or.inl rfl) chunks [] [] (flushInv_nil [])
        (by rw [hflat]; exact hnone)
    · intro before after hsome hp hc
      exact c8_run_file envOK p chunks [] [] before after (flushInv_nil [])
        (by decide) (by rw [hflat]; exact hsome) hp hc
  · intro chunks
    constructor
    · intro hnone
      exact c8_run_none envOK _ _ (Or.inr rfl) chunks [] [] (flushInv_nil [])
        (by rw [hflat]; exact hnone)
    · intro before after hsome hc
      exact c8_run_shell envOK chunks [] [] before after (flushInv_nil [])
        (by decide) (by rw [hflat]; exact hsome) hc

/-- C8 witness: a close literal split as "…</boltAct" + "ion>…" across chunks
does not leak; the dispatched content is exactly the text before it. -/
theorem C8_witness :
    splitAtSub closeActionKw
      ((["hel".toList, "lo</boltAct".toList, "ion>fluff".toList] : List Str).flatten) =
      some ("hello".toList, "fluff".toList) ∧
    firstActionEnd (runChunks envOK (fileStart ("x.txt".toList))
        ["hel".toList, "lo</boltAct".toList, "ion>fluff".toList]).2 =
      some ⟨.file, some ("x.txt".toList), "hello".toList⟩ :=
  ⟨by decide,
   (C8_theorem.1 ("x.txt".toList) _).2 ("hello".toList) ("fluff".toList)
     (by decide) (by decide) (by decide)⟩

/-! ### Claim C3: the withheld tail on a buffered pass -/

/-- C3: the claim says that when the action-close literal is absent the parser
withholds exactly len(close-literal) − 1 = 12 trailing characters.  False: the
source computes safeLength = max(0, buffer.length − closeTag.length), which
withholds closeTag.length = 13 characters (or the whole buffer when shorter).
On a 13-character close-free buffer the claim predicts 12 withheld characters
and one character appended to the content buffer; the code withholds all 13
and appends nothing. -/
theorem C3_counterexample :
    splitAtSub closeActionKw "abcdefghijklm".toList = none ∧
    ¬ ((step envOK ⟨.IN_FILE_ACTION, "abcdefghijklm".toList,
        some ⟨.file, some "p".toList⟩, []⟩).1.buffer.length
      = closeActionKw.length - 1) := by
  constructor
  · decide
  · decide

/-- C3 (amended): in IN_FILE_ACTION and IN_SHELL_ACTION, when the action-close
literal is not in the buffer, the parser withholds min(len(close-literal),
buffer length) trailing characters — that is, it keeps buffer.drop
(buffer.length − 13) — appends all earlier characters to the
content-accumulation buffer, emits nothing, and waits for the next chunk. -/
theorem C3_theorem (env : Env) (s : Session)
    (hst : s.state = .IN_FILE_ACTION ∨ s.state = .IN_SHELL_ACTION)
    (hnone : splitAtSub closeActionKw s.buffer = none) :
    step env s = (⟨s.state, s.buffer.drop (s.buffer.length - closeActionKw.length),
      s.currentAction,
      s.contentBuffer ++ s.buffer.take (s.buffer.length - closeActionKw.length)⟩,
      [], false) :=
  step_flush env s hst hnone

/-- C3 witness: on an 18-character close-free buffer the code moves the first
5 characters to the content buffer and withholds the last 13. -/
theorem C3_witness :
    splitAtSub closeActionKw c3Sess.buffer = none ∧
    step envOK c3Sess = (⟨.IN_FILE_ACTION, "al content he".toList,
      some ⟨.file, some "p".toList⟩, "parti".toList⟩, [], false) :=
  ⟨by decide, C3_theorem envOK c3Sess (Or.inl rfl) (by decide)⟩

/-! ### Claim C4: directory-creation failures -/

/-- C4: the claim says a directory-creation failure other than already-exists
is a hard error for the action and is surfaced.  False: the source wraps each
mkdir in try/catch with an empty catch block, so every mkdir failure is
silently swallowed; here every mkdir fails hard, yet no error event is
surfaced anywhere and the write still reports success. -/
theorem C4_counterexample :
    envFail.mkdir "a".toList = MkdirOutcome.failed ∧
    errorEvents (ensureDirectory envFail "a/b".toList) = [] ∧
    writeFile envFail "a/b/f.txt".toList "x".toList =
      [Ev.fileWritten "a/b/f.txt".toList] := by
  refine ⟨rfl, ?_, ?_⟩ <;> decide

/-- C4 (amended): during directory creation for a file action every mkdir
outcome — success, already-exists, or any other failure — surfaces no error
and no event at all; directory creation is unconditionally silent, and only
the subsequent file write can surface an error. -/
theorem C4_theorem (env : Env) (dirPath : Str) :
    ensureDirectory env dirPath = [] :=
  ensureDirectory_eq_nil env dirPath

/-! ### Claim C5: finalize -/

/-- C5: finalize never fails, always resets the session to IDLE with empty
buffers and no action in progress, and reports a warning exactly when the
state is not IDLE and the content buffer is non-empty. -/
theorem C5_theorem (s : Session) :
    (finalize s).1 = initSession ∧
    ((finalize s).2 = true ↔ s.state ≠ .IDLE ∧ s.contentBuffer ≠ []) := by
  unfold finalize
  refine ⟨rfl, ?_⟩
  simp

/-! ### Claim C6: an action with empty trimmed content is skipped -/

/-- C6: when the close literal is present and the accumulated content trims to
empty, the action is not dispatched (no events at all), yet the parser
consumes the closing delimiter, resets the action state and returns to
IN_ARTIFACT ready to continue. -/
theorem C6_theorem (env : Env) (s : Session) (before after : Str)
    (hst : s.state = .IN_FILE_ACTION ∨ s.state = .IN_SHELL_ACTION)
    (hsplit : splitAtSub closeActionKw s.buffer = some (before, after))
    (hempty : trimL (s.contentBuffer ++ before) = []) :
    step env s = (⟨.IN_ARTIFACT, after, none, []⟩, [], true) := by
  unfold step
  rcases hst with h | h <;> rw [h] <;> dsimp only
  · unfold handleInFileAction
    rw [hsplit]
    dsimp only
    rcases s.currentAction with _ | ca
    · rfl
    · obtain ⟨cat, cfp⟩ := ca
      rcases cfp with _ | p
      · rfl
      · dsimp only
        rw [if_neg]
        intro hcontra
        exact hcontra.2 hempty
  · unfold handleInShellAction
    rw [hsplit]
    dsimp only
    rw [if_neg]
    intro hcontra
    exact hcontra hempty

/-- C6 witness: the whitespace-only action is skipped without any event and
the parser advances past its closing delimiter. -/
theorem C6_witness :
    splitAtSub closeActionKw c6Sess.buffer = some ("   ".toList, "tail".toList) ∧
    trimL (c6Sess.contentBuffer ++ "   ".toList) = [] ∧
    step envOK c6Sess = (⟨.IN_ARTIFACT, "tail".toList, none, []⟩, [], true) :=
  ⟨by decide, by decide,
   C6_theorem envOK c6Sess "   ".toList "tail".toList (Or.inl rfl) (by decide) (by decide)⟩

/-! ### Claim C7: behaviour without an execution-environment handle -/

/-- C7: the claim says a completed file action with no environment handle is
reported through the same completion events as in the attached case.  False:
with a handle attached (and the write succeeding) the events are
[fileWritten, actionEnd], while detached they are [actionEnd] only — the
file-written event fires only when a container is attached. -/
theorem C7_counterexample :
    (step envDetached c7Sess).2.1 ≠ (step envOK c7Sess).2.1 := by
  decide

/-- C7 (amended): with no execution-environment handle attached, a completed
file or shell action causes no error and no physical side effect, and is
still reported: a file action fires exactly its action-end event (the
file-written event is omitted — it requires attachment), and a shell action
fires exactly the same shell-command and action-end events as in the attached
case (its handler never consults the environment). -/
theorem C7_theorem :
    (∀ (env : Env) (s : Session) (before after p : Str), env.attached = false →
      s.state = .IN_FILE_ACTION → s.currentAction = some ⟨.file, some p⟩ →
      splitAtSub closeActionKw s.buffer = some (before, after) → p ≠ [] →
      trimL (s.contentBuffer ++ before) ≠ [] →
      step env s = (⟨.IN_ARTIFACT, after, none, []⟩,
        [Ev.actionEnd ⟨.file, some p, trimL (s.contentBuffer ++ before)⟩], true))
    ∧ (∀ (env : Env) (s : Session) (before after : Str),
      s.state = .IN_SHELL_ACTION →
      splitAtSub closeActionKw s.buffer = some (before, after) →
      trimL (s.contentBuffer ++ before) ≠ [] →
      step env s = (⟨.IN_ARTIFACT, after, none, []⟩,
        [Ev.shellCommand (trimL (s.contentBuffer ++ before)),
         Ev.actionEnd ⟨.shell, none, trimL (s.contentBuffer ++ before)⟩], true)) := by
  constructor
  · intro env s before after p hatt hst hca hsplit hp hcontent
    unfold step
    rw [hst]
    dsimp only
    unfold handleInFileAction
    rw [hsplit]
    dsimp only
    rw [hca]
    dsimp only
    rw [if_pos ⟨hp, hcontent⟩, writeFile_eq, if_pos hatt]
    rfl
  · intro env s before after hst hsplit hcontent
    unfold step
    rw [hst]
    dsimp only
    unfold handleInShellAction
    rw [hsplit]
    dsimp only
    rw [if_pos hcontent]

/-- C7 witness: the detached file action fires only action-end; the shell
action fires shell-command and action-end independently of the environment. -/
theorem C7_witness :
    step envDetached c7Sess = (⟨.IN_ARTIFACT, [], none, []⟩,
      [Ev.actionEnd ⟨.file, some "x.txt".toList, "hello".toList⟩], true) ∧
    step envDetached c7ShellSess = (⟨.IN_ARTIFACT, [], none, []⟩,
      [Ev.shellCommand "echo hi".toList,
       Ev.actionEnd ⟨.shell, none, "echo hi".toList⟩], true) :=
  ⟨C7_theorem.1 envDetached c7Sess "hello".toList [] "x.txt".toList
      rfl rfl rfl (by decide) (by decide) (by decide),
   C7_theorem.2 envDetached c7ShellSess "echo hi".toList []
      rfl (by decide) (by decide)⟩

/-! ### Claim C10: a failing write does not suppress action-end -/

/-- C10: for a completed file action with non-empty path and non-empty trimmed
content, when the underlying write fails the error is reported through the
error event only, the action-end event still fires with the realized action,
and the parser returns to IN_ARTIFACT and keeps going. -/
theorem C10_theorem (env : Env) (s : Session) (before after p : Str)
    (hatt : env.attached = true) (hw : env.writeOk p = false)
    (hst : s.state = .IN_FILE_ACTION) (hca : s.currentAction = some ⟨.file, some p⟩)
    (hsplit : splitAtSub closeActionKw s.buffer = some (before, after))
    (hp : p ≠ []) (hcontent : trimL (s.contentBuffer ++ before) ≠ []) :
    step env s = (⟨.IN_ARTIFACT, after, none, []⟩,
      [Ev.errorEv p, Ev.actionEnd ⟨.file, some p, trimL (s.contentBuffer ++ before)⟩],
      true) := by
  unfold step
  rw [hst]
  dsimp only
  unfold handleInFileAction
  rw [hsplit]
  dsimp only
  rw [hca]
  dsimp only
  rw [if_pos ⟨hp, hcontent⟩, writeFile_eq, if_neg (by rw [hatt]; simp), hw]
  rfl

/-- C10 witness: a failing write on a concrete completed file action yields
exactly the error event followed by action-end, with parsing continuing. -/
theorem C10_witness :
    step envWriteFail c7Sess = (⟨.IN_ARTIFACT, [], none, []⟩,
      [Ev.errorEv "x.txt".toList,
       Ev.actionEnd ⟨.file, some "x.txt".toList, "hello".toList⟩], true) :=
  C10_theorem envWriteFail c7Sess "hello".toList [] "x.txt".toList
    rfl rfl rfl rfl (by decide) (by decide) (by decide)

/-! ### Claim C9: verbatim text forwarding -/

/-- C9: every chunk is forwarded verbatim, exactly once, to the text observer,
ahead of all other events of that chunk; the parser loop itself emits no text
events, so the concatenated forwarded text equals the concatenated input. -/
theorem C9_theorem :
    (∀ (env : Env) (s : Session) (c : Str), ∃ s' evs,
      processChunk env s c = (s', Ev.text c :: evs) ∧ textPayloads evs = [])
    ∧ (∀ (env : Env) (s : Session) (chunks : List Str),
      textPayloads (runChunks env s chunks).2 = chunks) := by
  constructor
  · intro env s c
    unfold processChunk
    dsimp only
    exact ⟨_, _, rfl, processBuffer_no_text env _ _ rfl⟩
  · intro env s chunks
    induction chunks generalizing s with
    | nil => rfl
    | cons c cs ih =>
      unfold runChunks processChunk
      dsimp only
      unfold textPayloads at ih ⊢
      rw [List.filterMap_append]
      dsimp only [List.filterMap_cons]
      have h1 := processBuffer_no_text env _ { s with buffer := s.buffer ++ c } rfl
      unfold textPayloads at h1
      rw [h1, ih]
      rfl

/-! ### Claim C1: chunk-split invariance fails on the code -/

set_option maxRecDepth 100000 in
/-- C1: the claim (and the spec's ordering guarantee) requires every chunking
of a well-formed artifact with N actions to dispatch the same action sequence
as one-chunk delivery, in document order.  The code violates this: in
IN_ARTIFACT the file-action regex is tried before the shell-action regex, and
its match consumes everything before it in the buffer.  When a shell action
precedes a file action and both open tags sit in the buffer together
(one-chunk delivery), the shell action is silently discarded; delivering the
same bytes split after the shell action's close tag dispatches both actions.
The code contradicts the spec's exactly-once dispatch intent, so this is
recorded as a bug in the code. -/
theorem C1_theorem :
    c1ChunkA ++ c1ChunkB = c1Input ∧
    actionEnds (runChunks envOK initSession [c1Input]).2 =
      [⟨.file, some "x.txt".toList, "hi".toList⟩] ∧
    actionEnds (runChunks envOK initSession [c1ChunkA, c1ChunkB]).2 =
      [⟨.shell, none, "echo hi".toList⟩,
       ⟨.file, some "x.txt".toList, "hi".toList⟩] := by
  refine ⟨by decide, by decide, by decide⟩

/-! ### Claim C2: the spec's worked example, for every three-chunk delivery -/

theorem c2Input_length : c2Input.length = 151 := by decide

theorem seg_length {i m : Nat} (h1 : i ≤ m) (h2 : m ≤ 151) :
    (seg i m).length = m - i := by
  unfold seg
  rw [List.length_drop, List.length_take, c2Input_length]
  omega

theorem seg_self (a : Nat) : seg a a = [] := by
  apply List.drop_eq_nil_of_le
  rw [List.length_take]
  omega

theorem seg_drop (i m k : Nat) : (seg i m).drop k = seg (i + k) m := by
  unfold seg
  rw [List.drop_drop]

theorem seg_take {i m k : Nat} (h : i + k ≤ m) (_hm : m ≤ 151) :
    (seg i m).take k = seg i (i + k) := by
  unfold seg
  rw [List.take_drop, List.take_take]
  congr 2
  omega

theorem seg_as_take (i m : Nat) (h : i ≤ m) :
    seg i m = (c2Input.drop i).take (m - i) := by
  unfold seg
  rw [drop_take_comm _ m i h]

theorem seg_append {a b c : Nat} (hab : a ≤ b) (hbc : b ≤ c) (hc : c ≤ 151) :
    seg a b ++ seg b c = seg a c := by
  have h1 : seg a b = (seg a c).take (b - a) := by
    rw [seg_take (by omega) hc]
    congr 1
    omega
  have h2 : seg b c = (seg a c).drop (b - a) := by
    rw [seg_drop]
    congr 1
    omega
  rw [h1, h2, List.take_append_drop]

theorem drop32 : c2Input.drop 32 = sfx1 := by decide

theorem drop73 : c2Input.drop 73 = sfx2 := by decide

theorem drop91 : c2Input.drop 91 = sfx3 := by decide

theorem drop116 : c2Input.drop 116 = sfx4 := by decide

theorem drop136 : c2Input.drop 136 = sfx5 := by decide

/-- Before the anchored match at offset 0 is complete (and given no other
match starts within it), a short take has no artifact-open match at all. -/
theorem findArtifact_take_none_pre {T iv tv T' : Str} {l L : Nat}
    (h0 : matchArtifactAt T = some (iv, tv, T')) (hl : T.length = l + T'.length)
    (cert : ∀ q, 0 < q → q < l → matchArtifactAt (T.drop q) = none)
    (hL : L < l) (hLT : L ≤ T.length) : findArtifact (T.take L) = none := by
  apply findArtifact_none
  intro q
  by_cases hq : q < L
  · rcases hm : matchArtifactAt ((T.take L).drop q) with _ | ⟨iv2, tv2, r⟩
    · rfl
    · exfalso
      obtain ⟨c, hc, hsh⟩ := matchArtifactAt_destruct hm
      have hsplit : T.drop q = (T.take L).drop q ++ T.drop L := by
        have hTL : (T.take L) ++ T.drop L = T := List.take_append_drop L T
        calc T.drop q = ((T.take L) ++ T.drop L).drop q := by rw [hTL]
        _ = (T.take L).drop q ++ T.drop L := by
            rw [List.drop_append_of_le_length]
            rw [List.length_take]
            omega
      have hfull : matchArtifactAt (T.drop q) = some (iv2, tv2, r ++ T.drop L) := by
        rw [hsplit, hc, List.append_assoc]
        exact hsh.buildArt _
      rcases Nat.eq_zero_or_pos q with hq0 | hqpos
      · subst hq0
        rw [List.drop_zero] at hfull
        rw [h0] at hfull
        have hT' : T' = r ++ T.drop L := congrArg (fun x => x.2.2) (Option.some.inj hfull)
        have hcl : c.length + r.length = (T.take L).length := by
          have := congrArg List.length hc
          simp only [List.length_append, List.drop_zero] at this
          omega
        have hcpos := hsh.length_pos
        have hTlen := congrArg List.length hT'
        simp only [List.length_append, List.length_drop] at hTlen
        rw [List.length_take] at hcl
        omega
      · have hcontra := cert q hqpos (by omega)
        rw [hcontra] at hfull
        exact Option.noConfusion hfull
  · rw [List.drop_eq_nil_of_le (by rw [List.length_take]; omega)]
    exact matchArtifactAt_nil

theorem findFile_take_none_pre {T pv T' : Str} {l L : Nat}
    (h0 : matchFileAt T = some (pv, T')) (hl : T.length = l + T'.length)
    (cert : ∀ q, 0 < q → q < l → matchFileAt (T.drop q) = none)
    (hL : L < l) (hLT : L ≤ T.length) : findFile (T.take L) = none := by
  apply findFile_none
  intro q
  by_cases hq : q < L
  · rcases hm : matchFileAt ((T.take L).drop q) with _ | ⟨pv2, r⟩
    · rfl
    · exfalso
      obtain ⟨c, hc, hsh⟩ := matchFileAt_destruct hm
      have hsplit : T.drop q = (T.take L).drop q ++ T.drop L := by
        have hTL : (T.take L) ++ T.drop L = T := List.take_append_drop L T
        calc T.drop q = ((T.take L) ++ T.drop L).drop q := by rw [hTL]
        _ = (T.take L).drop q ++ T.drop L := by
            rw [List.drop_append_of_le_length]
            rw [List.length_take]
            omega
      have hfull : matchFileAt (T.drop q) = some (pv2, r ++ T.drop L) := by
        rw [hsplit, hc, List.append_assoc]
        exact hsh.buildFile _
      rcases Nat.eq_zero_or_pos q with hq0 | hqpos
      · subst hq0
        rw [List.drop_zero] at hfull
        rw [h0] at hfull
        have hT' : T' = r ++ T.drop L := congrArg (fun x => x.2) (Option.some.inj hfull)
        have hcl : c.length + r.length = (T.take L).length := by
          have := congrArg List.length hc
          simp only [List.length_append, List.drop_zero] at this
          omega
        have hcpos : 0 < c.length := by
          cases hcc : c with
          | nil => exact absurd hcc hsh.neNilFile
          | cons x y => simp
        have hTlen := congrArg List.length hT'
        simp only [List.length_append, List.length_drop] at hTlen
        rw [List.length_take] at hcl
        omega
      · have hcontra := cert q hqpos (by omega)
        rw [hcontra] at hfull
        exact Option.noConfusion hfull
  · rw [List.drop_eq_nil_of_le (by rw [List.length_take]; omega)]
    exact matchFileAt_nil

theorem step_idle_none (env : Env) (s : Session) (hst : s.state = .IDLE)
    (hf : findArtifact s.buffer = none)
    (hz : splitAtSub closeArtifactKw s.buffer = none) :
    step env s = (s, [], false) := by
  unfold step
  rw [hst]
  dsimp only
  unfold handleIdle
  rw [hf, hz]

theorem step_idle_artifact (env : Env) (s : Session) (iv tv rest : Str)
    (hst : s.state = .IDLE) (hf : findArtifact s.buffer = some (iv, tv, rest)) :
    step env s = ({ s with state := .IN_ARTIFACT, buffer := rest },
      [Ev.artifactStart iv tv], true) := by
  unfold step
  rw [hst]
  dsimp only
  unfold handleIdle
  rw [hf]

theorem step_in_artifact_none (env : Env) (s : Session) (hst : s.state = .IN_ARTIFACT)
    (hf : findFile s.buffer = none) (hsh : findShell s.buffer = none)
    (hz : splitAtSub closeArtifactKw s.buffer = none) :
    step env s = (s, [], false) := by
  unfold step
  rw [hst]
  dsimp only
  unfold handleInArtifact
  rw [hf, hsh, hz]

theorem step_in_artifact_file (env : Env) (s : Session) (pv rest : Str)
    (hst : s.state = .IN_ARTIFACT) (hf : findFile s.buffer = some (pv, rest)) :
    step env s = (⟨.IN_FILE_ACTION, rest, some ⟨.file, some pv⟩, []⟩,
      [Ev.actionStart .file (some pv)], true) := by
  unfold step
  rw [hst]
  dsimp only
  unfold handleInArtifact
  rw [hf]

theorem step_in_artifact_shell (env : Env) (s : Session) (rest : Str)
    (hst : s.state = .IN_ARTIFACT) (hf : findFile s.buffer = none)
    (hsh : findShell s.buffer = some rest) :
    step env s = (⟨.IN_SHELL_ACTION, rest, some ⟨.shell, none⟩, []⟩,
      [Ev.actionStart .shell none], true) := by
  unfold step
  rw [hst]
  dsimp only
  unfold handleInArtifact
  rw [hf, hsh]

theorem step_in_artifact_close (env : Env) (s : Session) (b a : Str)
    (hst : s.state = .IN_ARTIFACT) (hf : findFile s.buffer = none)
    (hsh : findShell s.buffer = none)
    (hz : splitAtSub closeArtifactKw s.buffer = some (b, a)) :
    step env s = ({ s with state := .IDLE, buffer := a }, [Ev.artifactEnd], true) := by
  unfold step
  rw [hst]
  dsimp only
  unfold handleInArtifact
  rw [hf, hsh, hz]

/-! Facts about the cumulative event schedule -/

theorem cumEvAux_prefix {n m : Nat} (h : n ≤ m) :
    ∀ L : List (Nat × List Ev), cumEvAux n L <+: cumEvAux m L := by
  intro L
  induction L with
  | nil => exact List.prefix_refl _
  | cons te rest ih =>
    obtain ⟨t, e⟩ := te
    unfold cumEvAux
    by_cases htn : t ≤ n
    · rw [if_pos htn, if_pos (Nat.le_trans htn h)]
      obtain ⟨w, hw⟩ := ih
      exact ⟨w, by rw [List.append_assoc, hw]⟩
    · rw [if_neg htn]
      exact List.nil_prefix

theorem cumEv_prefix {n m : Nat} (h : n ≤ m) : cumEv n <+: cumEv m :=
  cumEvAux_prefix h _

theorem deltaEv_trans {n m k : Nat} (h1 : n ≤ m) (h2 : m ≤ k) :
    deltaEv n m ++ deltaEv m k = deltaEv n k := by
  unfold deltaEv
  obtain ⟨w, hw⟩ := cumEv_prefix h2
  obtain ⟨v, hv⟩ := cumEv_prefix h1
  rw [← hw, List.drop_left, List.drop_append_of_le_length]
  have := congrArg List.length hv
  rw [List.length_append] at this
  omega

theorem deltaEv_congr {n b m : Nat} (h : cumEv n = cumEv b) :
    deltaEv n m = deltaEv b m := by
  unfold deltaEv
  rw [h]

theorem deltaEv_nil {n m : Nat} (h : cumEv m = cumEv n) : deltaEv n m = [] := by
  unfold deltaEv
  rw [h, List.drop_length]

theorem cumEvAux_no_text {m : Nat} :
    ∀ L : List (Nat × List Ev), (∀ te ∈ L, ∀ e ∈ te.2, isText e = false) →
      ∀ e ∈ cumEvAux m L, isText e = false := by
  intro L
  induction L with
  | nil => intro _ e he; simp [cumEvAux] at he
  | cons te rest ih =>
    obtain ⟨t, ev⟩ := te
    intro hall e he
    unfold cumEvAux at he
    by_cases htm : t ≤ m
    · rw [if_pos htm] at he
      rcases List.mem_append.mp he with h1 | h2
      · exact hall (t, ev) (List.mem_cons_self _ _) e h1
      · exact ih (fun p hp => hall p (List.mem_cons_of_mem _ hp)) e h2
    · rw [if_neg htm] at he
      simp at he

theorem nonText_deltaEv (n m : Nat) : nonText (deltaEv n m) = deltaEv n m := by
  apply List.filter_eq_self.mpr
  intro e he
  have hmem : e ∈ cumEv m := List.mem_of_mem_drop he
  have := cumEvAux_no_text c2Thresholds (by decide) e hmem
  simp [this]

/-! Canonical-session stage views -/

theorem canon_s0 {m : Nat} (h : m < 32) : canon m = ⟨.IDLE, seg 0 m, none, []⟩ := by
  unfold canon
  rw [if_pos h]

theorem canon_s1 {m : Nat} (h1 : 32 ≤ m) (h2 : m < 73) :
    canon m = ⟨.IN_ARTIFACT, seg 32 m, none, []⟩ := by
  unfold canon
  rw [if_neg (by omega), if_pos h2]

theorem canon_s2 {m : Nat} (h1 : 73 ≤ m) (h2 : m < 91) :
    canon m = ⟨.IN_FILE_ACTION, seg (max 73 (m - 13)) m,
      some ⟨.file, some "x.txt".toList⟩, seg 73 (max 73 (m - 13))⟩ := by
  unfold canon
  rw [if_neg (by omega), if_neg (by omega), if_pos h2]

theorem canon_s3 {m : Nat} (h1 : 91 ≤ m) (h2 : m < 116) :
    canon m = ⟨.IN_ARTIFACT, seg 91 m, none, []⟩ := by
  unfold canon
  rw [if_neg (by omega), if_neg (by omega), if_neg (by omega), if_pos h2]

theorem canon_s4 {m : Nat} (h1 : 116 ≤ m) (h2 : m < 136) :
    canon m = ⟨.IN_SHELL_ACTION, seg (max 116 (m - 13)) m,
      some ⟨.shell, none⟩, seg 116 (max 116 (m - 13))⟩ := by
  unfold canon
  rw [if_neg (by omega), if_neg (by omega), if_neg (by omega), if_neg (by omega), if_pos h2]

theorem canon_s5 {m : Nat} (h1 : 136 ≤ m) (h2 : m < 151) :
    canon m = ⟨.IN_ARTIFACT, seg 136 m, none, []⟩ := by
  unfold canon
  rw [if_neg (by omega), if_neg (by omega), if_neg (by omega), if_neg (by omega),
    if_neg (by omega), if_pos h2]

theorem canon_s6 {m : Nat} (h1 : 151 ≤ m) : canon m = ⟨.IDLE, [], none, []⟩ := by
  unfold canon
  rw [if_neg (by omega), if_neg (by omega), if_neg (by omega), if_neg (by omega),
    if_neg (by omega), if_neg (by omega)]

theorem findShell_take_none_pre {T T' : Str} {l L : Nat}
    (h0 : matchShellAt T = some T') (hl : T.length = l + T'.length)
    (cert : ∀ q, 0 < q → q < l → matchShellAt (T.drop q) = none)
    (hL : L < l) (hLT : L ≤ T.length) : findShell (T.take L) = none := by
  apply findShell_none
  intro q
  by_cases hq : q < L
  · rcases hm : matchShellAt ((T.take L).drop q) with _ | r
    · rfl
    · exfalso
      obtain ⟨c, hc, hsh⟩ := matchShellAt_destruct hm
      have hsplit : T.drop q = (T.take L).drop q ++ T.drop L := by
        have hTL : (T.take L) ++ T.drop L = T := List.take_append_drop L T
        calc T.drop q = ((T.take L) ++ T.drop L).drop q := by rw [hTL]
        _ = (T.take L).drop q ++ T.drop L := by
            rw [List.drop_append_of_le_length]
            rw [List.length_take]
            omega
      have hfull : matchShellAt (T.drop q) = some (r ++ T.drop L) := by
        rw [hsplit, hc, List.append_assoc]
        exact hsh.buildShell _
      rcases Nat.eq_zero_or_pos q with hq0 | hqpos
      · subst hq0
        rw [List.drop_zero] at hfull
        rw [h0] at hfull
        have hT' : T' = r ++ T.drop L := Option.some.inj hfull
        have hcl : c.length + r.length = (T.take L).length := by
          have := congrArg List.length hc
          simp only [List.length_append, List.drop_zero] at this
          omega
        have hcpos : 0 < c.length := by
          cases hcc : c with
          | nil => exact absurd hcc hsh.neNilShell
          | cons x y => simp
        have hTlen := congrArg List.length hT'
        simp only [List.length_append, List.length_drop] at hTlen
        rw [List.length_take] at hcl
        omega
      · have hcontra := cert q hqpos (by omega)
        rw [hcontra] at hfull
        exact Option.noConfusion hfull
  · rw [List.drop_eq_nil_of_le (by rw [List.length_take]; omega)]
    exact matchShellAt_nil


theorem len_sfx1 : sfx1.length = 119 := by decide

theorem len_sfx2 : sfx2.length = 78 := by decide

theorem len_sfx3 : sfx3.length = 60 := by decide

theorem len_sfx4 : sfx4.length = 35 := by decide

theorem len_sfx5 : sfx5.length = 15 := by decide

theorem certA0 : matchArtifactAt c2Input = some ("a1".toList, "T".toList, sfx1) := by decide

theorem certA0n : ∀ q < 31, matchArtifactAt (c2Input.drop (q + 1)) = none := by decide

theorem certZ0 : ∀ q < 32, ¬ closeArtifactKw <+: c2Input.drop q := by decide

theorem certF1 : matchFileAt sfx1 = some ("x.txt".toList, sfx2) := by decide

theorem certF1n : ∀ q < 40, matchFileAt (sfx1.drop (q + 1)) = none := by decide

theorem certS1 : ∀ q < 41, matchShellAt (sfx1.drop q) = none := by decide

theorem certZ1 : ∀ q < 41, ¬ closeArtifactKw <+: sfx1.drop q := by decide

theorem certC2m : ∀ r < 5, ¬ closeActionKw <+: c2Input.drop (73 + r) := by decide

theorem certC2f : closeActionKw <+: c2Input.drop 78 := by decide

theorem certF3 : ∀ q < 60, matchFileAt (sfx3.drop q) = none := by decide

theorem certS3 : matchShellAt sfx3 = some sfx4 := by decide

theorem certS3n : ∀ q < 24, matchShellAt (sfx3.drop (q + 1)) = none := by decide

theorem certZ3 : ∀ q < 45, ¬ closeArtifactKw <+: sfx3.drop q := by decide

theorem certC4m : ∀ r < 7, ¬ closeActionKw <+: c2Input.drop (116 + r) := by decide

theorem certC4f : closeActionKw <+: c2Input.drop 123 := by decide

theorem certF5 : ∀ q < 15, matchFileAt (sfx5.drop q) = none := by decide

theorem certS5 : ∀ q < 15, matchShellAt (sfx5.drop q) = none := by decide

theorem certZ5f : splitAtSub closeArtifactKw (seg 136 151) = some ([], []) := by decide

theorem cumEv_c0 {m : Nat} (h : m < 32) : cumEv m = cumEv 0 := by
  unfold cumEv c2Thresholds
  simp only [cumEvAux]
  rw [if_neg (by omega : ¬ (32:Nat) ≤ m)]
  rfl

theorem cumEv_c1 {m : Nat} (h1 : 32 ≤ m) (h2 : m < 73) : cumEv m = cumEv 32 := by
  unfold cumEv c2Thresholds
  simp only [cumEvAux]
  rw [if_pos (by omega : (32:Nat) ≤ m), if_neg (by omega : ¬ (73:Nat) ≤ m)]
  rfl

theorem cumEv_c2 {m : Nat} (h1 : 73 ≤ m) (h2 : m < 91) : cumEv m = cumEv 73 := by
  unfold cumEv c2Thresholds
  simp only [cumEvAux]
  rw [if_pos (by omega : (32:Nat) ≤ m), if_pos (by omega : (73:Nat) ≤ m),
    if_neg (by omega : ¬ (91:Nat) ≤ m)]
  rfl

theorem cumEv_c3 {m : Nat} (h1 : 91 ≤ m) (h2 : m < 116) : cumEv m = cumEv 91 := by
  unfold cumEv c2Thresholds
  simp only [cumEvAux]
  rw [if_pos (by omega : (32:Nat) ≤ m), if_pos (by omega : (73:Nat) ≤ m),
    if_pos (by omega : (91:Nat) ≤ m), if_neg (by omega : ¬ (116:Nat) ≤ m)]
  rfl

theorem cumEv_c4 {m : Nat} (h1 : 116 ≤ m) (h2 : m < 136) : cumEv m = cumEv 116 := by
  unfold cumEv c2Thresholds
  simp only [cumEvAux]
  rw [if_pos (by omega : (32:Nat) ≤ m), if_pos (by omega : (73:Nat) ≤ m),
    if_pos (by omega : (91:Nat) ≤ m), if_pos (by omega : (116:Nat) ≤ m),
    if_neg (by omega : ¬ (136:Nat) ≤ m)]
  rfl

theorem cumEv_c5 {m : Nat} (h1 : 136 ≤ m) (h2 : m < 151) : cumEv m = cumEv 136 := by
  unfold cumEv c2Thresholds
  simp only [cumEvAux]
  rw [if_pos (by omega : (32:Nat) ≤ m), if_pos (by omega : (73:Nat) ≤ m),
    if_pos (by omega : (91:Nat) ≤ m), if_pos (by omega : (116:Nat) ≤ m),
    if_pos (by omega : (136:Nat) ≤ m), if_neg (by omega : ¬ (151:Nat) ≤ m)]
  rfl



theorem len_closeAct : closeActionKw.length = 13 := by decide

theorem len_closeArt : closeArtifactKw.length = 15 := by decide

/-- Stage lemma for positions in [136, 151]: inside the artifact, after the
shell action has closed, waiting for the artifact-close tag. -/
theorem stage5 (m : Nat) (h1 : 136 ≤ m) (h2 : m ≤ 151) :
    processBuffer envOK ⟨.IN_ARTIFACT, seg 136 m, none, []⟩ = (canon m, deltaEv 136 m) := by
  have hseg : seg 136 m = sfx5.take (m - 136) := by
    rw [seg_as_take _ _ (by omega), drop136]
  have hf : findFile (seg 136 m) = none := by
    rw [hseg]
    exact findFile_take_none (by rw [len_sfx5]; omega) (by omega) certF5
  have hsh : findShell (seg 136 m) = none := by
    rw [hseg]
    exact findShell_take_none (by rw [len_sfx5]; omega) (by omega) certS5
  rw [processBuffer_unfold]
  by_cases hm : m < 151
  · have hz : splitAtSub closeArtifactKw (seg 136 m) = none := by
      rw [hseg]
      exact splitAtSub_take_none (B := 0) (by decide) (fun q hq => absurd hq (by omega))
        (by rw [len_closeArt]; omega) (by rw [len_sfx5]; omega)
    rw [step_in_artifact_none envOK _ rfl hf hsh hz]
    rw [canon_s5 h1 hm, deltaEv_nil (cumEv_c5 h1 hm)]
  · have hm151 : m = 151 := by omega
    subst hm151
    rw [step_in_artifact_close envOK _ [] [] rfl hf hsh certZ5f]
    dsimp only
    rw [processBuffer_unfold]
    have hIdle : step envOK (⟨.IDLE, [], none, []⟩ : Session) =
        ((⟨.IDLE, [], none, []⟩ : Session), [], false) :=
      step_idle_none envOK ⟨.IDLE, [], none, []⟩ rfl rfl (by decide)
    rw [hIdle]
    rw [canon_s6 (by omega)]
    have hd : deltaEv 136 151 = [Ev.artifactEnd] := by decide
    rw [hd]
    rfl

/-- Stage lemma for the shell action in flight: content starts at 116, the
close literal sits at [123, 136). -/
theorem stage4 (bs m : Nat) (hb1 : 116 ≤ bs) (hb2 : bs ≤ 123)
    (hbs : bs ≤ 116 ∨ bs + 13 ≤ m) (hm1 : bs ≤ m) (hm2 : m ≤ 151) :
    processBuffer envOK ⟨.IN_SHELL_ACTION, seg bs m, some ⟨.shell, none⟩, seg 116 bs⟩ =
      (canon m, deltaEv 116 m) := by
  have hsegT : seg bs m = (c2Input.drop bs).take (m - bs) := seg_as_take _ _ hm1
  have hTlen : (c2Input.drop bs).length = 151 - bs := by
    rw [List.length_drop, c2Input_length]
  have certB : ∀ q < 123 - bs, ¬ closeActionKw <+: (c2Input.drop bs).drop q := by
    intro q hq
    rw [List.drop_drop, show bs + q = 116 + (bs + q - 116) by omega]
    exact certC4m (bs + q - 116) (by omega)
  rw [processBuffer_unfold]
  by_cases hm : m < 136
  · have hz : splitAtSub closeActionKw (seg bs m) = none := by
      rw [hsegT]
      exact splitAtSub_take_none (by decide) certB
        (by rw [len_closeAct]; omega) (by rw [hTlen]; omega)
    rw [step_flush envOK _ (Or.inr rfl) hz]
    dsimp only
    have hlen : (seg bs m).length = m - bs := seg_length hm1 hm2
    have hk : (seg bs m).length - closeActionKw.length = (m - bs) - 13 := by
      rw [hlen, len_closeAct]
    have hbk : bs + ((m - bs) - 13) = max 116 (m - 13) := by
      rcases Nat.le_total (m - 13) 116 with hc | hc
      · rw [Nat.max_eq_left hc]
        omega
      · rw [Nat.max_eq_right hc]
        omega
    rw [canon_s4 (by omega) hm, deltaEv_nil (cumEv_c4 (by omega) hm)]
    rw [hk, seg_drop, seg_take (by omega) hm2, seg_append hb1 (by omega) (by omega), hbk]
  · have hz : splitAtSub closeActionKw (seg bs m) = some (seg bs 123, seg 136 m) := by
      rw [hsegT]
      have hfire : closeActionKw <+: (c2Input.drop bs).drop (123 - bs) := by
        rw [List.drop_drop, show bs + (123 - bs) = 123 by omega]
        exact certC4f
      rw [splitAtSub_take_fire (by decide) certB hfire
        (by rw [len_closeAct]; omega) (by rw [hTlen]; omega)]
      have e1 : (c2Input.drop bs).take (123 - bs) = seg bs 123 :=
        (seg_as_take bs 123 (by omega)).symm
      have e2 : ((c2Input.drop bs).drop ((123 - bs) + closeActionKw.length)).take
          ((m - bs) - ((123 - bs) + closeActionKw.length)) = seg 136 m := by
        rw [len_closeAct, List.drop_drop, show bs + ((123 - bs) + 13) = 136 by omega,
          show (m - bs) - ((123 - bs) + 13) = m - 136 by omega]
        exact (seg_as_take 136 m (by omega)).symm
      rw [e1, e2]
    rw [step_shell_dispatch envOK _ (seg bs 123) (seg 136 m) rfl hz]
    dsimp only
    have hcb : seg 116 bs ++ seg bs 123 = seg 116 123 := seg_append hb1 hb2 (by omega)
    have hpe : seg 116 123 = pE := by decide
    have htr : trimL pE = pE := by decide
    rw [hcb, hpe, htr]
    rw [if_pos (by decide : pE ≠ [])]
    rw [stage5 m (by omega) hm2]
    dsimp only
    have hd : deltaEv 116 136 = [Ev.shellCommand pE, Ev.actionEnd ⟨.shell, none, pE⟩] := by
      decide
    rw [← deltaEv_trans (by omega : (116:Nat) ≤ 136) (by omega : (136:Nat) ≤ m), hd]



/-- Stage lemma for positions in [91, 151]: inside the artifact between the
file action's close and the shell action's open. -/
theorem stage3 (m : Nat) (h1 : 91 ≤ m) (h2 : m ≤ 151) :
    processBuffer envOK ⟨.IN_ARTIFACT, seg 91 m, none, []⟩ = (canon m, deltaEv 91 m) := by
  have hseg : seg 91 m = sfx3.take (m - 91) := by
    rw [seg_as_take _ _ (by omega), drop91]
  have hf : findFile (seg 91 m) = none := by
    rw [hseg]
    exact findFile_take_none (by rw [len_sfx3]; omega) (by omega) certF3
  rw [processBuffer_unfold]
  by_cases hm : m < 116
  · have hsh : findShell (seg 91 m) = none := by
      rw [hseg]
      refine findShell_take_none_pre certS3 (by rw [len_sfx3, len_sfx4]) ?_
        (by omega) (by rw [len_sfx3]; omega)
      intro q hq0 hql
      rw [show q = (q - 1) + 1 by omega]
      exact certS3n (q - 1) (by omega)
    have hz : splitAtSub closeArtifactKw (seg 91 m) = none := by
      rw [hseg]
      exact splitAtSub_take_none (B := 45) (by decide) certZ3
        (by rw [len_closeArt]; omega) (by rw [len_sfx3]; omega)
    rw [step_in_artifact_none envOK _ rfl hf hsh hz]
    rw [canon_s3 h1 hm, deltaEv_nil (cumEv_c3 h1 hm)]
  · have hsh : findShell (seg 91 m) = some (seg 116 m) := by
      rw [hseg]
      rw [findShell_take_fire certS3 (by rw [len_sfx3, len_sfx4]) (by omega : 25 ≤ m - 91)]
      have e : sfx4.take ((m - 91) - 25) = seg 116 m := by
        rw [show (m - 91) - 25 = m - 116 by omega, ← drop116, ← seg_as_take 116 m (by omega)]
      rw [e]
    rw [step_in_artifact_shell envOK _ (seg 116 m) rfl hf hsh]
    dsimp only
    have h4 := stage4 116 m (by omega) (by omega) (Or.inl (by omega)) (by omega) h2
    rw [seg_self] at h4
    rw [h4]
    dsimp only
    have hd : deltaEv 91 116 = [Ev.actionStart .shell none] := by decide
    rw [← deltaEv_trans (by omega : (91:Nat) ≤ 116) (by omega : (116:Nat) ≤ m), hd]

/-- Stage lemma for the file action in flight: content starts at 73, the
close literal sits at [78, 91). -/
theorem stage2 (bs m : Nat) (hb1 : 73 ≤ bs) (hb2 : bs ≤ 78)
    (hbs : bs ≤ 73 ∨ bs + 13 ≤ m) (hm1 : bs ≤ m) (hm2 : m ≤ 151) :
    processBuffer envOK
      ⟨.IN_FILE_ACTION, seg bs m, some ⟨.file, some "x.txt".toList⟩, seg 73 bs⟩ =
      (canon m, deltaEv 73 m) := by
  have hsegT : seg bs m = (c2Input.drop bs).take (m - bs) := seg_as_take _ _ hm1
  have hTlen : (c2Input.drop bs).length = 151 - bs := by
    rw [List.length_drop, c2Input_length]
  have certB : ∀ q < 78 - bs, ¬ closeActionKw <+: (c2Input.drop bs).drop q := by
    intro q hq
    rw [List.drop_drop, show bs + q = 73 + (bs + q - 73) by omega]
    exact certC2m (bs + q - 73) (by omega)
  rw [processBuffer_unfold]
  by_cases hm : m < 91
  · have hz : splitAtSub closeActionKw (seg bs m) = none := by
      rw [hsegT]
      exact splitAtSub_take_none (by decide) certB
        (by rw [len_closeAct]; omega) (by rw [hTlen]; omega)
    rw [step_flush envOK _ (Or.inl rfl) hz]
    dsimp only
    have hlen : (seg bs m).length = m - bs := seg_length hm1 hm2
    have hk : (seg bs m).length - closeActionKw.length = (m - bs) - 13 := by
      rw [hlen, len_closeAct]
    have hbk : bs + ((m - bs) - 13) = max 73 (m - 13) := by
      rcases Nat.le_total (m - 13) 73 with hc | hc
      · rw [Nat.max_eq_left hc]
        omega
      · rw [Nat.max_eq_right hc]
        omega
    rw [canon_s2 (by omega) hm, deltaEv_nil (cumEv_c2 (by omega) hm)]
    rw [hk, seg_drop, seg_take (by omega) hm2, seg_append hb1 (by omega) (by omega), hbk]
  · have hz : splitAtSub closeActionKw (seg bs m) = some (seg bs 78, seg 91 m) := by
      rw [hsegT]
      have hfire : closeActionKw <+: (c2Input.drop bs).drop (78 - bs) := by
        rw [List.drop_drop, show bs + (78 - bs) = 78 by omega]
        exact certC2f
      rw [splitAtSub_take_fire (by decide) certB hfire
        (by rw [len_closeAct]; omega) (by rw [hTlen]; omega)]
      have e1 : (c2Input.drop bs).take (78 - bs) = seg bs 78 :=
        (seg_as_take bs 78 (by omega)).symm
      have e2 : ((c2Input.drop bs).drop ((78 - bs) + closeActionKw.length)).take
          ((m - bs) - ((78 - bs) + closeActionKw.length)) = seg 91 m := by
        rw [len_closeAct, List.drop_drop, show bs + ((78 - bs) + 13) = 91 by omega,
          show (m - bs) - ((78 - bs) + 13) = m - 91 by omega]
        exact (seg_as_take 91 m (by omega)).symm
      rw [e1, e2]
    rw [step_file_dispatch envOK _ (seg bs 78) (seg 91 m) "x.txt".toList rfl rfl hz]
    dsimp only
    have hcb : seg 73 bs ++ seg bs 78 = seg 73 78 := seg_append hb1 hb2 (by omega)
    have hph : seg 73 78 = pH := by decide
    have htr : trimL pH = pH := by decide
    rw [hcb, hph, htr]
    rw [if_pos (⟨by decide, by decide⟩ : ("x.txt".toList : Str) ≠ [] ∧ (pH : Str) ≠ [])]
    have hwf : writeFile envOK "x.txt".toList pH = [Ev.fileWritten "x.txt".toList] := by decide
    rw [hwf]
    rw [stage3 m (by omega) hm2]
    dsimp only
    have hd : deltaEv 73 91 = [Ev.fileWritten "x.txt".toList,
        Ev.actionEnd ⟨.file, some "x.txt".toList, pH⟩] := by decide
    rw [← deltaEv_trans (by omega : (73:Nat) ≤ 91) (by omega : (91:Nat) ≤ m), hd]
    rfl

/-- Stage lemma for positions in [32, 151]: inside the artifact before the
file action's open tag is complete. -/
theorem stage1 (m : Nat) (h1 : 32 ≤ m) (h2 : m ≤ 151) :
    processBuffer envOK ⟨.IN_ARTIFACT, seg 32 m, none, []⟩ = (canon m, deltaEv 32 m) := by
  have hseg : seg 32 m = sfx1.take (m - 32) := by
    rw [seg_as_take _ _ (by omega), drop32]
  rw [processBuffer_unfold]
  by_cases hm : m < 73
  · have hf : findFile (seg 32 m) = none := by
      rw [hseg]
      refine findFile_take_none_pre certF1 (by rw [len_sfx1, len_sfx2]) ?_
        (by omega) (by rw [len_sfx1]; omega)
      intro q hq0 hql
      rw [show q = (q - 1) + 1 by omega]
      exact certF1n (q - 1) (by omega)
    have hsh : findShell (seg 32 m) = none := by
      rw [hseg]
      exact findShell_take_none (by rw [len_sfx1]; omega) (by omega) certS1
    have hz : splitAtSub closeArtifactKw (seg 32 m) = none := by
      rw [hseg]
      exact splitAtSub_take_none (B := 41) (by decide) certZ1
        (by rw [len_closeArt]; omega) (by rw [len_sfx1]; omega)
    rw [step_in_artifact_none envOK _ rfl hf hsh hz]
    rw [canon_s1 h1 hm, deltaEv_nil (cumEv_c1 h1 hm)]
  · have hf : findFile (seg 32 m) = some ("x.txt".toList, seg 73 m) := by
      rw [hseg]
      rw [findFile_take_fire certF1 (by rw [len_sfx1, len_sfx2]) (by omega : 41 ≤ m - 32)]
      have e : sfx2.take ((m - 32) - 41) = seg 73 m := by
        rw [show (m - 32) - 41 = m - 73 by omega, ← drop73, ← seg_as_take 73 m (by omega)]
      rw [e]
    rw [step_in_artifact_file envOK _ "x.txt".toList (seg 73 m) rfl hf]
    dsimp only
    have h2f := stage2 73 m (by omega) (by omega) (Or.inl (by omega)) (by omega) h2
    rw [seg_self] at h2f
    rw [h2f]
    dsimp only
    have hd : deltaEv 32 73 = [Ev.actionStart .file (some "x.txt".toList)] := by decide
    rw [← deltaEv_trans (by omega : (32:Nat) ≤ 73) (by omega : (73:Nat) ≤ m), hd]

/-- Stage lemma for the idle state: positions in [0, 151]. -/
theorem stage0 (m : Nat) (h2 : m ≤ 151) :
    processBuffer envOK ⟨.IDLE, seg 0 m, none, []⟩ = (canon m, deltaEv 0 m) := by
  have hseg : seg 0 m = c2Input.take m := by
    rw [seg_as_take _ _ (by omega)]
    rfl
  rw [processBuffer_unfold]
  by_cases hm : m < 32
  · have hf : findArtifact (seg 0 m) = none := by
      rw [hseg]
      refine findArtifact_take_none_pre certA0 (by rw [c2Input_length, len_sfx1]) ?_
        (by omega) (by rw [c2Input_length]; omega)
      intro q hq0 hql
      rw [show q = (q - 1) + 1 by omega]
      exact certA0n (q - 1) (by omega)
    have hz : splitAtSub closeArtifactKw (seg 0 m) = none := by
      rw [hseg]
      exact splitAtSub_take_none (B := 32) (by decide) certZ0
        (by rw [len_closeArt]; omega) (by rw [c2Input_length]; omega)
    rw [step_idle_none envOK _ rfl hf hz]
    rw [canon_s0 hm, deltaEv_nil (cumEv_c0 hm)]
  · have hf : findArtifact (seg 0 m) = some ("a1".toList, "T".toList, seg 32 m) := by
      rw [hseg]
      rw [findArtifact_take_fire certA0 (by rw [c2Input_length, len_sfx1]) (by omega : 32 ≤ m)]
      have e : sfx1.take (m - 32) = seg 32 m := by
        rw [← drop32, ← seg_as_take 32 m (by omega)]
      rw [e]
    rw [step_idle_artifact envOK _ "a1".toList "T".toList (seg 32 m) rfl hf]
    dsimp only
    rw [stage1 m (by omega) h2]
    dsimp only
    have hd : deltaEv 0 32 = [Ev.artifactStart "a1".toList "T".toList] := by decide
    rw [← deltaEv_trans (by omega : (0:Nat) ≤ 32) (by omega : (32:Nat) ≤ m), hd]



/-- Feeding the slice [n, m) of the example input to the canonical session at
position n yields the canonical session at position m, and emits exactly the
raw-text echo followed by the scheduled observer events of that interval. -/
theorem c2_feed (n m : Nat) (h1 : n ≤ m) (h2 : m ≤ 151) :
    processChunk envOK (canon n) (seg n m) = (canon m, Ev.text (seg n m) :: deltaEv n m) := by
  unfold processChunk
  by_cases hn0 : n < 32
  · rw [canon_s0 hn0]
    dsimp only
    rw [seg_append (Nat.zero_le n) h1 h2, stage0 m h2, deltaEv_congr (cumEv_c0 hn0)]
  by_cases hn1 : n < 73
  · rw [canon_s1 (by omega) hn1]
    dsimp only
    rw [seg_append (by omega : 32 ≤ n) h1 h2, stage1 m (by omega) h2,
      deltaEv_congr (cumEv_c1 (by omega) hn1)]
  by_cases hn2 : n < 91
  · rw [canon_s2 (by omega) hn2]
    dsimp only
    rw [seg_append (by omega : max 73 (n - 13) ≤ n) h1 h2,
      stage2 (max 73 (n - 13)) m (by omega) (by omega) (by omega) (by omega) h2,
      deltaEv_congr (cumEv_c2 (by omega) hn2)]
  by_cases hn3 : n < 116
  · rw [canon_s3 (by omega) hn3]
    dsimp only
    rw [seg_append (by omega : 91 ≤ n) h1 h2, stage3 m (by omega) h2,
      deltaEv_congr (cumEv_c3 (by omega) hn3)]
  by_cases hn4 : n < 136
  · rw [canon_s4 (by omega) hn4]
    dsimp only
    rw [seg_append (by omega : max 116 (n - 13) ≤ n) h1 h2,
      stage4 (max 116 (n - 13)) m (by omega) (by omega) (by omega) (by omega) h2,
      deltaEv_congr (cumEv_c4 (by omega) hn4)]
  by_cases hn5 : n < 151
  · rw [canon_s5 (by omega) hn5]
    dsimp only
    rw [seg_append (by omega : 136 ≤ n) h1 h2, stage5 m (by omega) h2,
      deltaEv_congr (cumEv_c5 (by omega) hn5)]
  · have hn : n = 151 := by omega
    have hm : m = 151 := by omega
    subst hn
    subst hm
    decide

theorem nonText_cons_text (t : Str) (l : List Ev) :
    nonText (Ev.text t :: l) = nonText l := by
  simp [nonText, List.filter_cons, isText]

/-- Any chunking of the remaining input drives the canonical session to the
final one and emits exactly the remaining scheduled observer events. -/
theorem c2_run_aux (chunks : List Str) : ∀ n : Nat, n ≤ 151 →
    chunks.flatten = c2Input.drop n →
    nonText (runChunks envOK (canon n) chunks).2 = deltaEv n 151 := by
  induction chunks with
  | nil =>
    intro n hn hf
    rw [List.flatten_nil] at hf
    have hlen := congrArg List.length hf
    rw [List.length_drop, c2Input_length, List.length_nil] at hlen
    have hn151 : n = 151 := by omega
    subst hn151
    decide
  | cons c cs ih =>
    intro n hn hf
    rw [List.flatten_cons] at hf
    have hlen := congrArg List.length hf
    rw [List.length_append, List.length_drop, c2Input_length] at hlen
    have hk : n + c.length ≤ 151 := by omega
    have hc : c = seg n (n + c.length) := by
      rw [seg_as_take _ _ (by omega), ← hf, Nat.add_sub_cancel_left]
      rw [show c.length = c.length + 0 from rfl, take_app, List.take_zero, List.append_nil]
    have hcs : cs.flatten = c2Input.drop (n + c.length) := by
      have h := congrArg (List.drop c.length) hf
      rw [show c ++ cs.flatten = c ++ (cs.flatten ++ []) by rw [List.append_nil]] at h
      rw [show (List.length c : Nat) = c.length + 0 from rfl, drop_app, List.drop_zero,
        List.append_nil, Nat.add_zero, List.drop_drop] at h
      exact h
    have hfeed := c2_feed n (n + c.length) (by omega) hk
    rw [← hc] at hfeed
    show nonText ((processChunk envOK (canon n) c).2 ++
      (runChunks envOK (processChunk envOK (canon n) c).1 cs).2) = deltaEv n 151
    rw [hfeed]
    dsimp only
    rw [nonText_append, nonText_cons_text, nonText_deltaEv,
      ih (n + c.length) hk hcs,
      deltaEv_trans (by omega : n ≤ n + c.length) (by omega : n + c.length ≤ 151)]



/-- C2, counterexample to the claimed event order: on a concrete three-chunk
split of the example input the emitted non-text events are not the claimed
six-event sequence (artifact-start, file action-end, file-written, shell
action-end, shell-command, artifact-end): the parser fires action-start
events, and fires file-written / shell-command before the matching
action-end, not after. -/
theorem C2_counterexample :
    nonText (runChunks envOK initSession
      [c2Input.take 10, (c2Input.drop 10).take 90, c2Input.drop 100]).2 ≠
    [Ev.artifactStart "a1".toList "T".toList,
     Ev.actionEnd ⟨.file, some "x.txt".toList, "hello".toList⟩,
     Ev.fileWritten "x.txt".toList,
     Ev.actionEnd ⟨.shell, none, "echo hi".toList⟩,
     Ev.shellCommand "echo hi".toList,
     Ev.artifactEnd] := by decide

/-- C2 (amended): for the example input (artifact id "a1", title "T", one
file action writing "hello" to x.txt, one shell action "echo hi") delivered
as any three chunks, the emitted non-text event sequence is exactly:
artifact-start("a1","T"), action-start(file,"x.txt"), file-written("x.txt"),
action-end(file action), action-start(shell), shell-command("echo hi"),
action-end(shell action), artifact-end — in that order regardless of the
split points.  Relative to the claim: the two action-start events also fire,
and file-written / shell-command precede (not follow) their action-end. -/
theorem C2_theorem (a b c : Str) (h : a ++ b ++ c = c2Input) :
    nonText (runChunks envOK initSession [a, b, c]).2 =
    [Ev.artifactStart "a1".toList "T".toList,
     Ev.actionStart .file (some "x.txt".toList),
     Ev.fileWritten "x.txt".toList,
     Ev.actionEnd ⟨.file, some "x.txt".toList, "hello".toList⟩,
     Ev.actionStart .shell none,
     Ev.shellCommand "echo hi".toList,
     Ev.actionEnd ⟨.shell, none, "echo hi".toList⟩,
     Ev.artifactEnd] := by
  have hflat : ([a, b, c] : List Str).flatten = c2Input.drop 0 := by
    rw [List.drop_zero, ← h]
    simp [List.flatten_cons, List.flatten_nil, List.append_assoc]
  have hr := c2_run_aux [a, b, c] 0 (by omega) hflat
  rw [show canon 0 = initSession by decide] at hr
  rw [hr]
  decide

/-- Witness for C2: a concrete three-chunk split (mid-tag, mid-content,
mid-close-delimiter). -/
theorem C2_witness :
    c2Input.take 40 ++ (c2Input.drop 40).take 45 ++ c2Input.drop 85 = c2Input ∧
    nonText (runChunks envOK initSession
      [c2Input.take 40, (c2Input.drop 40).take 45, c2Input.drop 85]).2 =
    [Ev.artifactStart "a1".toList "T".toList,
     Ev.actionStart .file (some "x.txt".toList),
     Ev.fileWritten "x.txt".toList,
     Ev.actionEnd ⟨.file, some "x.txt".toList, "hello".toList⟩,
     Ev.actionStart .shell none,
     Ev.shellCommand "echo hi".toList,
     Ev.actionEnd ⟨.shell, none, "echo hi".toList⟩,
     Ev.artifactEnd] :=
  ⟨by decide, C2_theorem _ _ _ (by decide)⟩


end ParseStream
